import Mathlib

/-
Verification of the page-table / eviction engine in src/LeePageTable.c.

The C code is embedded shallowly: arrays become lists carrying their length,
machine integers become Int (no arithmetic here ever approaches the int
width), and every operation that the C code performs without a bounds check
is modelled as an Option-valued operation that returns none exactly where
the C code would read or write out of bounds or dereference a NULL or
uninitialized pointer.  `none` therefore marks undefined behavior of the C
program; `some s` means the call runs to completion with state `s`.
-/

/- C: static const int EMPTY = -1; -/
def EMPTY : Int := -1

/- C: static const unsigned int VALID_BIT = 0; -/
def VALID_BIT : Nat := 0

/- C: struct page_table_entry { int page_number; int frame_number; unsigned int metadata; } -/
structure page_table_entry where
  page_number : Int
  frame_number : Int
  metadata : Nat
deriving DecidableEq

/- The enum replacement_algorithm from PageTable.h, values FIFO, LRU, MFU
(used as indices 0,1,2 into the name table). -/
inductive replacement_algorithm where
  | FIFO
  | LRU
  | MFU
deriving DecidableEq

/- Reading a C array at an int index: none when the index is out of bounds
(the C program's behavior there is undefined). -/
def listGetI {α : Type} (l : List α) (i : Int) : Option α :=
  if 0 ≤ i then l.get? i.toNat else none

/- Writing a C array at an int index: none when the index is out of bounds. -/
def listSetI {α : Type} (l : List α) (i : Int) (a : α) : Option (List α) :=
  if 0 ≤ i ∧ i < (l.length : Int) then some (l.set i.toNat a) else none

/- C: (arr[i])++ , a read-modify-write of one array cell. -/
def bumpI (l : List Int) (i : Int) : Option (List Int) :=
  match listGetI l i with
  | some c => listSetI l i (c + 1)
  | none => none

/- C: unsigned is_bit_set(unsigned n, unsigned bit) { return (n & (1ul << bit)); }
The C caller uses the result as a truth value, so the embedding returns the
corresponding Bool. -/
def is_bit_set (n : Nat) (bit : Nat) : Bool := n.testBit bit

/- C: unsigned clear_bit(unsigned n, unsigned bit) { return (n & ~(1ul << VALID_BIT)); }
Note the C body ignores its bit argument and always clears VALID_BIT (bit 0);
clearing bit 0 of n is n - n % 2. -/
def clear_bit (n : Nat) (bit : Nat) : Nat := n - n % 2

/- C: struct page_queue { int front, rear, size; unsigned capacity; struct page_table_entry *array; }
The array is allocated with `capacity` cells and starts uninitialized; a slot
holds none until it has been written. -/
structure page_queue where
  front : Int
  rear : Int
  size : Int
  capacity : Nat
  array : List (Option page_table_entry)
deriving DecidableEq

/- C: create_queue.  rear is initialized to capacity - 1 (as an int). -/
def create_queue (capacity : Nat) : page_queue :=
  { front := 0
    rear := (capacity : Int) - 1
    size := 0
    capacity := capacity
    array := List.replicate capacity none }

/- C: int is_full(struct page_queue *queue) { return (queue->size == queue->capacity); } -/
def is_full (queue : page_queue) : Bool := queue.size == (queue.capacity : Int)

/- C: int is_empty(struct page_queue *queue) { return (queue->size == 0); } -/
def is_empty (queue : page_queue) : Bool := queue.size == 0

/- C: enqueue.  A full queue is left unchanged (early return).  Otherwise rear
advances circularly, the item is stored at the new rear, and size grows.
The store is always in bounds when the array has `capacity` cells. -/
def enqueue (queue : page_queue) (item : page_table_entry) : page_queue :=
  if is_full queue then queue
  else
    let rear1 := (queue.rear + 1) % (queue.capacity : Int)
    { queue with
        rear := rear1
        array := queue.array.set rear1.toNat (some item)
        size := queue.size + 1 }

/- C: dequeue returns NULL on an empty queue, otherwise a pointer to the slot
at front, and advances front/size.  The caller reads the pointed-to entry
before mutating the queue again, so returning the value read at dequeue time
is faithful; a read of an uninitialized slot yields none (undefined in C). -/
def dequeue (queue : page_queue) : Option page_table_entry × page_queue :=
  if is_empty queue then (none, queue)
  else
    ((listGetI queue.array queue.front).join,
     { queue with
         front := (queue.front + 1) % (queue.capacity : Int)
         size := queue.size - 1 })

/- C: struct page_table.  The C struct stores page_count and frame_count
separately from the arrays it allocates with exactly those lengths; the
embedding carries each array with its length, so page_count = entries.length
and frame_count = frames.length. -/
structure page_table where
  entries : List page_table_entry
  frames : List Int
  algorithm : replacement_algorithm
  faults : Int
  fifo_queue : page_queue
  frame_accesses : List Int
deriving DecidableEq

/- C: page_table_create.  Every entry starts non-resident with frame_number
EMPTY and metadata 0, every frame starts EMPTY, faults at 0.  The FIFO queue
is allocated (capacity frame_count) only under FIFO and the access counters
(all 0) only under LRU; for the other algorithms the C pointer is left
uninitialized and never dereferenced, modelled by an empty structure.
The verbose flag only prints and is not part of the data model. -/
def page_table_create (page_count frame_count : Nat)
    (algorithm : replacement_algorithm) : page_table :=
  { entries := (List.range page_count).map
      (fun (i : Nat) => { page_number := (i : Int), frame_number := EMPTY, metadata := 0 })
    frames := List.replicate frame_count EMPTY
    algorithm := algorithm
    faults := 0
    fifo_queue :=
      match algorithm with
      | .FIFO => create_queue frame_count
      | _ => create_queue 0
    frame_accesses :=
      match algorithm with
      | .LRU => List.replicate frame_count (0 : Int)
      | _ => [] }

/- C: place_in_memory.  Stores the page in frames[frame], records the frame
in the page's entry and sets its VALID bit, then under FIFO enqueues the
updated entry and under LRU increments frame_accesses[frame]. -/
def place_in_memory (pt : page_table) (page frame : Int) : Option page_table :=
  match listSetI pt.frames frame page, listGetI pt.entries page with
  | some frames1, some e =>
    match listSetI pt.entries page
        ({ e with frame_number := frame, metadata := e.metadata ||| (1 <<< VALID_BIT) }) with
    | some entries1 =>
      match pt.algorithm with
      | .FIFO =>
        some { pt with frames := frames1, entries := entries1,
                       fifo_queue := enqueue pt.fifo_queue
                         ({ e with frame_number := frame,
                                   metadata := e.metadata ||| (1 <<< VALID_BIT) }) }
      | .LRU =>
        match bumpI pt.frame_accesses frame with
        | some fa1 =>
          some { pt with frames := frames1, entries := entries1, frame_accesses := fa1 }
        | none => none
      | .MFU => some { pt with frames := frames1, entries := entries1 }
    | none => none
  | _, _ => none

/- C: swap_fifo.  Dequeues the oldest record (dereferencing the result with
no NULL check: none when the queue was empty), clears the VALID bit of that
record's page, and places the new page into the record's frame_number. -/
def swap_fifo (pt : page_table) (page : Int) : Option page_table :=
  match dequeue pt.fifo_queue with
  | (none, _) => none
  | (some fi_page, q1) =>
    match listGetI pt.entries fi_page.page_number with
    | some dequeued =>
      match listSetI pt.entries fi_page.page_number
          ({ dequeued with metadata := dequeued.metadata - dequeued.metadata % 2 }) with
      | some entries1 =>
        place_in_memory { pt with fifo_queue := q1, entries := entries1 }
          page fi_page.frame_number
      | none => none
    | none => none

/- C: the scan in swap_lru.  lru_frame starts at 0 and moves to i only when
frame_accesses[i] is strictly below the running minimum, so ties keep the
lowest index. -/
def lru_victim (frame_accesses : List Int) : Nat :=
  (List.range frame_accesses.length).foldl
    (fun lru_frame i =>
      if frame_accesses.getD i 0 < frame_accesses.getD lru_frame 0 then i else lru_frame)
    0

/- C: swap_lru.  After the scan it reads lru_page = frames[lru_frame], clears
that page's VALID bit, and then calls place_in_memory(pt, page, lru_page):
the C code passes the victim PAGE number where place_in_memory expects a
frame number. -/
def swap_lru (pt : page_table) (page : Int) : Option page_table :=
  match listGetI pt.frames ((lru_victim pt.frame_accesses : Nat) : Int) with
  | none => none
  | some lru_page =>
    match listGetI pt.entries lru_page with
    | none => none
    | some lru_entry =>
      match listSetI pt.entries lru_page
          ({ lru_entry with metadata := clear_bit lru_entry.metadata VALID_BIT }) with
      | none => none
      | some entries1 => place_in_memory { pt with entries := entries1 } page lru_page

/- C: page_table_access_page.  Reads pt->entries[page] with no bounds check.
On a hit (frame_number != EMPTY and VALID bit set) only the LRU counter of
that frame is bumped.  On a miss the fault counter is incremented, the first
EMPTY frame (left-to-right) is used if any, and otherwise the algorithm's
swap routine runs (MFU has no swap routine and does nothing further). -/
def page_table_access_page (pt : page_table) (page : Int) : Option page_table :=
  match listGetI pt.entries page with
  | none => none
  | some entry =>
    if entry.frame_number ≠ EMPTY ∧ is_bit_set entry.metadata VALID_BIT then
      match pt.algorithm with
      | .LRU =>
        match bumpI pt.frame_accesses entry.frame_number with
        | some fa1 => some { pt with frame_accesses := fa1 }
        | none => none
      | _ => some pt
    else
      match pt.frames.findIdx? (fun f => f == EMPTY) with
      | some i => place_in_memory { pt with faults := pt.faults + 1 } page (i : Int)
      | none =>
        match pt.algorithm with
        | .FIFO => swap_fifo { pt with faults := pt.faults + 1 } page
        | .LRU => swap_lru { pt with faults := pt.faults + 1 } page
        | .MFU => some { pt with faults := pt.faults + 1 }

/- Driving the engine with a reference sequence, as the excluded scenario
loader does: access each page in order; a failing access aborts the run. -/
def page_table_run (pt : page_table) : List Int → Option page_table
  | [] => some pt
  | p :: ps =>
    match page_table_access_page pt p with
    | some pt1 => page_table_run pt1 ps
    | none => none

/- States of the engine that arise from a construction followed by some
sequence of accesses that runs to completion. -/
def Reachable (pt : page_table) : Prop :=
  ∃ page_count frame_count algorithm refs,
    page_table_run (page_table_create page_count frame_count algorithm) refs = some pt

/-- FIFO replacement as the spec words it (sections 3 and 4.2): the
currently-resident pages are kept as a list in load order; a hit changes
nothing, a miss with a free frame appends the page at the end, and a miss
with all frames full evicts the earliest-loaded page (the head) and appends
the new page. -/
def fifoSpecStep (frame_count : Nat) (m : List Int) (p : Int) : List Int :=
  if p ∈ m then m
  else if m.length < frame_count then m ++ [p]
  else m.drop 1 ++ [p]

/-- The spec-level FIFO resident list after a whole reference sequence. -/
def fifoSpecModel (frame_count : Nat) (refs : List Int) : List Int :=
  refs.foldl (fifoSpecStep frame_count) []

/- The code's own residency test, used on the hit path of
page_table_access_page and mirrored by the display routine's valid column. -/
def entry_resident (e : page_table_entry) : Prop :=
  e.frame_number ≠ EMPTY ∧ is_bit_set e.metadata VALID_BIT

instance (e : page_table_entry) : Decidable (entry_resident e) := by
  unfold entry_resident; infer_instance

/- Basic facts about the Int-indexed array operations. -/

theorem listGetI_eq_some {α : Type} {l : List α} {i : Int} {a : α} :
    listGetI l i = some a ↔ 0 ≤ i ∧ l.get? i.toNat = some a := by
  unfold listGetI
  split <;> simp_all

theorem listSetI_eq_some {α : Type} {l : List α} {i : Int} {a : α} {l1 : List α} :
    listSetI l i a = some l1 ↔ (0 ≤ i ∧ i < (l.length : Int)) ∧ l1 = l.set i.toNat a := by
  unfold listSetI
  split <;> simp_all [eq_comm]

theorem listSetI_length {α : Type} {l : List α} {i : Int} {a : α} {l1 : List α}
    (h : listSetI l i a = some l1) : l1.length = l.length := by
  rcases listSetI_eq_some.mp h with ⟨_, rfl⟩
  simp

theorem bumpI_eq_some {l : List Int} {i : Int} {l1 : List Int} :
    bumpI l i = some l1 ↔ ∃ c, listGetI l i = some c ∧ listSetI l i (c + 1) = some l1 := by
  unfold bumpI
  constructor
  · intro h
    split at h
    · exact ⟨_, by assumption, h⟩
    · exact absurd h (by simp)
  · rintro ⟨c, hc, hs⟩
    rw [hc]
    exact hs

theorem bumpI_length {l : List Int} {i : Int} {l1 : List Int}
    (h : bumpI l i = some l1) : l1.length = l.length := by
  rcases bumpI_eq_some.mp h with ⟨c, _, hs⟩
  exact listSetI_length hs

theorem listGetI_lt_length {α : Type} {l : List α} {i : Int} {a : α}
    (h : listGetI l i = some a) : 0 ≤ i ∧ i < (l.length : Int) := by
  rcases listGetI_eq_some.mp h with ⟨hi, hg⟩
  rcases List.get?_eq_some.mp hg with ⟨hlt, _⟩
  exact ⟨hi, by omega⟩

/- A cleared VALID bit (bit 0) reads as unset. -/
theorem is_bit_set_clear (n : Nat) : is_bit_set (n - n % 2) VALID_BIT = false := by
  unfold is_bit_set VALID_BIT
  rw [Nat.testBit_zero]
  simp only [decide_eq_false_iff_not]
  omega

/- A freshly set VALID bit reads as set. -/
theorem is_bit_set_set (n : Nat) : is_bit_set (n ||| (1 <<< VALID_BIT)) VALID_BIT = true := by
  unfold is_bit_set VALID_BIT
  simp

/- Well-formedness of an engine state: every entry whose VALID bit is set
records an in-range frame number, and under LRU the access-counter array has
one cell per frame.  This is established at construction and preserved by
every completing access. -/
def WF (pt : page_table) : Prop :=
  (∀ e ∈ pt.entries, is_bit_set e.metadata VALID_BIT = true →
      0 ≤ e.frame_number ∧ e.frame_number < (pt.frames.length : Int)) ∧
  (pt.algorithm = .LRU → pt.frame_accesses.length = pt.frames.length)

/- Elimination form for a completing place_in_memory: the exact state change
and the bounds that the successful array writes certify. -/
theorem place_spec {pt : page_table} {page frame : Int} {pt1 : page_table}
    (h : place_in_memory pt page frame = some pt1) :
    ∃ e, listGetI pt.entries page = some e ∧
      (0 ≤ frame ∧ frame < (pt.frames.length : Int)) ∧
      pt1.entries = pt.entries.set page.toNat
        { e with frame_number := frame, metadata := e.metadata ||| (1 <<< VALID_BIT) } ∧
      pt1.frames = pt.frames.set frame.toNat page ∧
      pt1.algorithm = pt.algorithm ∧
      pt1.faults = pt.faults ∧
      (pt.algorithm = .FIFO →
        pt1.fifo_queue = enqueue pt.fifo_queue
          { e with frame_number := frame, metadata := e.metadata ||| (1 <<< VALID_BIT) } ∧
        pt1.frame_accesses = pt.frame_accesses) ∧
      (pt.algorithm = .LRU →
        pt1.fifo_queue = pt.fifo_queue ∧
        bumpI pt.frame_accesses frame = some pt1.frame_accesses) ∧
      (pt.algorithm = .MFU →
        pt1.fifo_queue = pt.fifo_queue ∧ pt1.frame_accesses = pt.frame_accesses) := by
  unfold place_in_memory at h
  split at h
  case h_2 => exact absurd h (by simp)
  case h_1 frames1 e hfr hget =>
    try dsimp only at h
    split at h
    case h_2 => exact absurd h (by simp)
    case h_1 entries1 hent =>
      rcases listSetI_eq_some.mp hfr with ⟨hfb, rfl⟩
      rcases listSetI_eq_some.mp hent with ⟨heb, rfl⟩
      refine ⟨e, hget, hfb, ?_⟩
      split at h
      case h_1 halg =>
        cases h
        refine ⟨rfl, rfl, rfl, rfl, fun _ => ⟨rfl, rfl⟩, fun hl => ?_, fun hm => ?_⟩
        · rw [halg] at hl
          cases hl
        · rw [halg] at hm
          cases hm
      case h_2 halg =>
        split at h
        case h_2 => exact absurd h (by simp)
        case h_1 fa1 hfa =>
          cases h
          refine ⟨rfl, rfl, rfl, rfl, fun hf => ?_, fun _ => ⟨rfl, hfa⟩, fun hm => ?_⟩
          · rw [halg] at hf
            cases hf
          · rw [halg] at hm
            cases hm
      case h_3 halg =>
        cases h
        refine ⟨rfl, rfl, rfl, rfl, fun hf => ?_, fun hl => ?_, fun _ => ⟨rfl, rfl⟩⟩
        · rw [halg] at hf
          cases hf
        · rw [halg] at hl
          cases hl

/- Elimination form for a completing swap_fifo. -/
theorem swap_fifo_spec {pt : page_table} {page : Int} {pt1 : page_table}
    (h : swap_fifo pt page = some pt1) :
    ∃ fi_page q1 dequeued entries1,
      dequeue pt.fifo_queue = (some fi_page, q1) ∧
      listGetI pt.entries fi_page.page_number = some dequeued ∧
      listSetI pt.entries fi_page.page_number
        { dequeued with metadata := dequeued.metadata - dequeued.metadata % 2 } = some entries1 ∧
      place_in_memory { pt with fifo_queue := q1, entries := entries1 }
        page fi_page.frame_number = some pt1 := by
  unfold swap_fifo at h
  split at h
  case h_1 => exact absurd h (by simp)
  case h_2 fi_page q1 hdq =>
    split at h
    case h_2 => exact absurd h (by simp)
    case h_1 dequeued hget =>
      try dsimp only at h
      split at h
      case h_2 => exact absurd h (by simp)
      case h_1 entries1 hset =>
        exact ⟨fi_page, q1, dequeued, entries1, hdq, hget, hset, h⟩

/- Elimination form for a completing swap_lru. -/
theorem swap_lru_spec {pt : page_table} {page : Int} {pt1 : page_table}
    (h : swap_lru pt page = some pt1) :
    ∃ lru_page lru_entry entries1,
      listGetI pt.frames ((lru_victim pt.frame_accesses : Nat) : Int) = some lru_page ∧
      listGetI pt.entries lru_page = some lru_entry ∧
      listSetI pt.entries lru_page
        { lru_entry with metadata := clear_bit lru_entry.metadata VALID_BIT } = some entries1 ∧
      place_in_memory { pt with entries := entries1 } page lru_page = some pt1 := by
  unfold swap_lru at h
  try dsimp only at h
  split at h
  case h_1 => exact absurd h (by simp)
  case h_2 lru_page hfr =>
    try dsimp only at h
    split at h
    case h_1 => exact absurd h (by simp)
    case h_2 lru_entry hget =>
      try dsimp only at h
      split at h
      case h_1 => exact absurd h (by simp)
      case h_2 entries1 hset =>
        exact ⟨lru_page, lru_entry, entries1, hfr, hget, hset, h⟩

/- Every completing access starts with a successful read of the page's entry
(the C code performs this read unconditionally and unchecked). -/
theorem access_some_get {pt : page_table} {page : Int} {pt1 : page_table}
    (h : page_table_access_page pt page = some pt1) :
    ∃ entry, listGetI pt.entries page = some entry := by
  unfold page_table_access_page at h
  split at h
  case h_1 => exact absurd h (by simp)
  case h_2 entry hget => exact ⟨entry, hget⟩

/- Altering only the fault counter leaves well-formedness untouched. -/
theorem WF_faults {pt : page_table} (hwf : WF pt) (v : Int) :
    WF { pt with faults := v } := hwf

/- Replacing one entry by an entry with the VALID bit clear preserves WF. -/
theorem WF_update_entries_nonvalid {pt pt1 : page_table} {n : Nat} {e1 : page_table_entry}
    (hwf : WF pt)
    (hent : pt1.entries = pt.entries.set n e1)
    (hbit : is_bit_set e1.metadata VALID_BIT = false)
    (hfr : pt1.frames = pt.frames) (halg : pt1.algorithm = pt.algorithm)
    (hfa : pt1.frame_accesses = pt.frame_accesses) : WF pt1 := by
  constructor
  · intro x hx hb
    rw [hent] at hx
    rcases List.mem_or_eq_of_mem_set hx with hx1 | rfl
    · rw [hfr]
      exact hwf.1 x hx1 hb
    · rw [hbit] at hb
      cases hb
  · intro hl
    rw [hfa, hfr]
    exact hwf.2 (by rw [← halg]; exact hl)

/- place_in_memory preserves well-formedness. -/
theorem WF_place {pt : page_table} {page frame : Int} {pt1 : page_table}
    (hwf : WF pt) (h : place_in_memory pt page frame = some pt1) : WF pt1 := by
  obtain ⟨e, he, ⟨hf0, hflt⟩, hent, hfr, halg, hfl, hA, hB, hC⟩ := place_spec h
  constructor
  · intro x hx hb
    rw [hent] at hx
    rcases List.mem_or_eq_of_mem_set hx with hx1 | rfl
    · have := hwf.1 x hx1 hb
      rw [hfr, List.length_set]
      exact this
    · rw [hfr, List.length_set]
      exact ⟨hf0, hflt⟩
  · intro hl
    have hl1 : pt.algorithm = .LRU := halg ▸ hl
    obtain ⟨_, hb⟩ := hB hl1
    have hlen := bumpI_length hb
    rw [hfr, List.length_set, hlen]
    exact hwf.2 hl1

/- swap_fifo preserves well-formedness. -/
theorem WF_swap_fifo {pt : page_table} {page : Int} {pt1 : page_table}
    (hwf : WF pt) (h : swap_fifo pt page = some pt1) : WF pt1 := by
  obtain ⟨fi_page, q1, dequeued, entries1, hdq, hget, hset, hplace⟩ := swap_fifo_spec h
  rcases listSetI_eq_some.mp hset with ⟨_, rfl⟩
  refine WF_place ?_ hplace
  exact WF_update_entries_nonvalid hwf rfl (is_bit_set_clear _) rfl rfl rfl

/- swap_lru preserves well-formedness. -/
theorem WF_swap_lru {pt : page_table} {page : Int} {pt1 : page_table}
    (hwf : WF pt) (h : swap_lru pt page = some pt1) : WF pt1 := by
  obtain ⟨lru_page, lru_entry, entries1, hfr, hget, hset, hplace⟩ := swap_lru_spec h
  rcases listSetI_eq_some.mp hset with ⟨_, rfl⟩
  refine WF_place ?_ hplace
  exact WF_update_entries_nonvalid hwf rfl (is_bit_set_clear _) rfl rfl rfl

/- page_table_access_page preserves well-formedness. -/
theorem WF_access {pt : page_table} {page : Int} {pt1 : page_table}
    (hwf : WF pt) (h : page_table_access_page pt page = some pt1) : WF pt1 := by
  unfold page_table_access_page at h
  split at h
  case h_1 => exact absurd h (by simp)
  case h_2 entry hget =>
    split at h
    · split at h
      case h_1 halg =>
        split at h
        case h_2 => exact absurd h (by simp)
        case h_1 fa1 hfa =>
          cases h
          constructor
          · exact hwf.1
          · intro _
            rw [bumpI_length hfa]
            exact hwf.2 halg
      case h_2 =>
        cases h
        exact hwf
    · split at h
      case h_1 i hfind =>
        exact WF_place (WF_faults hwf _) h
      case h_2 hfind =>
        split at h
        case h_1 halg => exact WF_swap_fifo (WF_faults hwf _) h
        case h_2 halg => exact WF_swap_lru (WF_faults hwf _) h
        case h_3 halg =>
          cases h
          exact hwf

/- A freshly constructed engine is well-formed. -/
theorem WF_create (page_count frame_count : Nat) (algorithm : replacement_algorithm) :
    WF (page_table_create page_count frame_count algorithm) := by
  constructor
  · intro e he hb
    simp only [page_table_create, List.mem_map, List.mem_range] at he
    obtain ⟨i, _, rfl⟩ := he
    simp [is_bit_set, VALID_BIT] at hb
  · intro halg
    simp only [page_table_create] at halg
    simp only [page_table_create, halg]
    simp

/- A completing run preserves well-formedness. -/
theorem WF_run {pt : page_table} {refs : List Int} {pt1 : page_table}
    (hwf : WF pt) (h : page_table_run pt refs = some pt1) : WF pt1 := by
  induction refs generalizing pt with
  | nil =>
    unfold page_table_run at h
    cases h
    exact hwf
  | cons p ps ih =>
    unfold page_table_run at h
    split at h
    case h_1 pt2 hacc => exact ih (WF_access hwf hacc) h
    case h_2 => exact absurd h (by simp)

/- Every reachable engine state is well-formed. -/
theorem Reachable_WF {pt : page_table} (h : Reachable pt) : WF pt := by
  obtain ⟨page_count, frame_count, algorithm, refs, hrun⟩ := h
  exact WF_run (WF_create page_count frame_count algorithm) hrun

/- place_in_memory never touches the fault counter. -/
theorem place_faults {pt : page_table} {page frame : Int} {pt1 : page_table}
    (h : place_in_memory pt page frame = some pt1) : pt1.faults = pt.faults := by
  obtain ⟨e, he, hb, hent, hfr, halg, hfl, hrest⟩ := place_spec h
  exact hfl

/- swap_fifo never touches the fault counter. -/
theorem swap_fifo_faults {pt : page_table} {page : Int} {pt1 : page_table}
    (h : swap_fifo pt page = some pt1) : pt1.faults = pt.faults := by
  obtain ⟨fi_page, q1, dequeued, entries1, hdq, hget, hset, hplace⟩ := swap_fifo_spec h
  have h2 := place_faults hplace
  exact h2

/- swap_lru never touches the fault counter. -/
theorem swap_lru_faults {pt : page_table} {page : Int} {pt1 : page_table}
    (h : swap_lru pt page = some pt1) : pt1.faults = pt.faults := by
  obtain ⟨lru_page, lru_entry, entries1, hfr, hget, hset, hplace⟩ := swap_lru_spec h
  have h2 := place_faults hplace
  exact h2

/- The exact fault delta of one completing access: 0 on a hit, 1 on a miss. -/
theorem access_faults {pt : page_table} {page : Int} {entry : page_table_entry}
    {pt1 : page_table}
    (hget : listGetI pt.entries page = some entry)
    (h : page_table_access_page pt page = some pt1) :
    pt1.faults = pt.faults + (if entry_resident entry then 0 else 1) := by
  unfold page_table_access_page at h
  split at h
  case h_1 => exact absurd h (by simp)
  case h_2 entry2 hget2 =>
    rw [hget] at hget2
    injection hget2 with hee
    subst hee
    split at h
    case isTrue hc =>
      have hr : entry_resident entry := hc
      rw [if_pos hr]
      split at h
      case h_1 halg =>
        split at h
        case h_2 => exact absurd h (by simp)
        case h_1 fa1 hfa =>
          cases h
          simp
      case h_2 =>
        cases h
        simp
    case isFalse hc =>
      have hr : ¬ entry_resident entry := hc
      rw [if_neg hr]
      split at h
      case h_1 i hfind => exact place_faults h
      case h_2 hfind =>
        split at h
        case h_1 halg => exact swap_fifo_faults h
        case h_2 halg => exact swap_lru_faults h
        case h_3 halg =>
          cases h
          simp

/- One completing access never decreases the fault counter. -/
theorem access_faults_le {pt : page_table} {page : Int} {pt1 : page_table}
    (h : page_table_access_page pt page = some pt1) : pt.faults ≤ pt1.faults := by
  obtain ⟨entry, hget⟩ := access_some_get h
  rw [access_faults hget h]
  split <;> omega

/- A completing run never decreases the fault counter. -/
theorem run_faults_le {pt : page_table} {refs : List Int} {pt1 : page_table}
    (h : page_table_run pt refs = some pt1) : pt.faults ≤ pt1.faults := by
  induction refs generalizing pt with
  | nil =>
    unfold page_table_run at h
    cases h
    exact le_refl _
  | cons p ps ih =>
    unfold page_table_run at h
    split at h
    case h_1 pt2 hacc => exact le_trans (access_faults_le hacc) (ih h)
    case h_2 => exact absurd h (by simp)

/- A successful read certifies membership. -/
theorem listGetI_mem {α : Type} {l : List α} {i : Int} {a : α}
    (h : listGetI l i = some a) : a ∈ l :=
  List.get?_mem (listGetI_eq_some.mp h).2

/- An in-range counter cell can always be bumped, and the bump is a set. -/
theorem bumpI_some_of_lt {l : List Int} {i : Int} (h0 : 0 ≤ i) (hl : i < (l.length : Int)) :
    ∃ c, listGetI l i = some c ∧ bumpI l i = some (l.set i.toNat (c + 1)) := by
  have hlt : i.toNat < l.length := by omega
  have ha : l.get? i.toNat = some (l.get ⟨i.toNat, hlt⟩) := List.get?_eq_get hlt
  refine ⟨l.get ⟨i.toNat, hlt⟩, listGetI_eq_some.mpr ⟨h0, ha⟩, ?_⟩
  unfold bumpI
  rw [listGetI_eq_some.mpr ⟨h0, ha⟩]
  exact listSetI_eq_some.mpr ⟨⟨h0, hl⟩, rfl⟩

/- The hit path under FIFO or MFU returns the state unchanged. -/
theorem access_hit_not_lru {pt : page_table} {page : Int} {entry : page_table_entry}
    (hget : listGetI pt.entries page = some entry)
    (hres : entry_resident entry)
    (halg : pt.algorithm ≠ .LRU) :
    page_table_access_page pt page = some pt := by
  simp only [page_table_access_page, hget]
  have hc : entry.frame_number ≠ EMPTY ∧ is_bit_set entry.metadata VALID_BIT = true := hres
  rw [if_pos hc]

/- The hit path under LRU bumps exactly the counter of the entry's frame. -/
theorem access_hit_lru {pt : page_table} {page : Int} {entry : page_table_entry}
    {fa1 : List Int}
    (hget : listGetI pt.entries page = some entry)
    (hres : entry_resident entry)
    (halg : pt.algorithm = .LRU)
    (hfa : bumpI pt.frame_accesses entry.frame_number = some fa1) :
    page_table_access_page pt page = some { pt with frame_accesses := fa1 } := by
  simp only [page_table_access_page, hget]
  have hc : entry.frame_number ≠ EMPTY ∧ is_bit_set entry.metadata VALID_BIT = true := hres
  rw [if_pos hc]
  simp only [halg, hfa]

/- Concrete states used by the closed witness theorems below. -/

def pt_default : page_table := page_table_create 0 0 .FIFO

def c4pt : page_table :=
  (page_table_access_page (page_table_create 2 1 .FIFO) 0).getD pt_default

def c8pt : page_table :=
  (page_table_run (page_table_create 2 1 .MFU) [0]).getD pt_default

def c9pt : page_table :=
  (page_table_run (page_table_create 1 1 .FIFO) [0]).getD pt_default

def c10q : page_queue := enqueue (create_queue 1) ⟨5, 0, 1⟩

/-- Claim C4: for every engine and every in-range access that completes, the
fault counter grows by exactly 1 when the page is non-resident at the call and
by exactly 0 when it is resident; over any completing access sequence the
fault counter is monotonically non-decreasing.  (The successful entry lookup
listGetI pt.entries page = some entry is the embedding's form of
0 ≤ page < page_count, since entries has page_count cells.) -/
theorem C4_fault_delta_and_monotone :
    (∀ (pt : page_table) (page : Int) (entry : page_table_entry) (pt1 : page_table),
        listGetI pt.entries page = some entry →
        page_table_access_page pt page = some pt1 →
        pt1.faults = pt.faults + (if entry_resident entry then 0 else 1)) ∧
    (∀ (pt : page_table) (refs : List Int) (pt1 : page_table),
        page_table_run pt refs = some pt1 → pt.faults ≤ pt1.faults) :=
  ⟨fun _ _ _ _ hget h => access_faults hget h,
   fun _ _ _ h => run_faults_le h⟩

/-- Witness for C4 at a concrete engine: a miss on page 0 of a fresh
2-page/1-frame FIFO engine bumps the fault counter by one, and a concrete
run is monotone. -/
theorem C4_witness :
    c4pt.faults = (page_table_create 2 1 .FIFO).faults +
      (if entry_resident { page_number := 0, frame_number := EMPTY, metadata := 0 } then 0 else 1) ∧
    (page_table_create 2 1 .FIFO).faults ≤ c4pt.faults :=
  ⟨C4_fault_delta_and_monotone.1 (page_table_create 2 1 .FIFO) 0
      { page_number := 0, frame_number := EMPTY, metadata := 0 } c4pt rfl rfl,
   C4_fault_delta_and_monotone.2 (page_table_create 2 1 .FIFO) [0] c4pt rfl⟩

/-- Claim C7 (behavior of the code at the failing input): the code performs
no validation of the page argument; an access outside [0, page_count) reads
pt->entries[page] out of bounds, modeled as failure (none), instead of being
rejected and reported with the engine state unchanged. -/
theorem C7_no_validation_code_eval :
    page_table_access_page (page_table_create 1 1 .FIFO) 1 = none ∧
    page_table_access_page (page_table_create 1 1 .FIFO) (-1) = none :=
  ⟨rfl, rfl⟩

/-- Claim C8: on an MFU engine with every frame occupied, an access to a
non-resident page increments the fault counter and does nothing else: no
eviction, no placement, entries, frames and auxiliary structures unchanged,
and the accessed page stays non-resident. -/
theorem C8_mfu_miss_noop {pt : page_table} {page : Int} {entry : page_table_entry}
    (halg : pt.algorithm = .MFU)
    (hfull : ∀ f ∈ pt.frames, f ≠ EMPTY)
    (hget : listGetI pt.entries page = some entry)
    (hmiss : ¬ entry_resident entry) :
    ∃ pt1, page_table_access_page pt page = some pt1 ∧
      pt1.faults = pt.faults + 1 ∧
      pt1.entries = pt.entries ∧ pt1.frames = pt.frames ∧
      pt1.fifo_queue = pt.fifo_queue ∧ pt1.frame_accesses = pt.frame_accesses ∧
      listGetI pt1.entries page = some entry ∧ ¬ entry_resident entry := by
  have hacc : page_table_access_page pt page = some { pt with faults := pt.faults + 1 } := by
    simp only [page_table_access_page, hget]
    have hc : ¬(entry.frame_number ≠ EMPTY ∧ is_bit_set entry.metadata VALID_BIT = true) := hmiss
    rw [if_neg hc]
    have hfind : pt.frames.findIdx? (fun f => f == EMPTY) = none := by
      rw [List.findIdx?_eq_none_iff]
      intro x hx
      simpa using hfull x hx
    simp only [hfind, halg]
  exact ⟨_, hacc, rfl, rfl, rfl, rfl, rfl, hget, hmiss⟩

/-- Witness for C8 at a concrete engine: MFU, one frame, page 0 resident,
access to non-resident page 1. -/
theorem C8_witness :
    ∃ pt1, page_table_access_page c8pt 1 = some pt1 ∧
      pt1.faults = c8pt.faults + 1 ∧
      pt1.entries = c8pt.entries ∧ pt1.frames = c8pt.frames ∧
      pt1.fifo_queue = c8pt.fifo_queue ∧ pt1.frame_accesses = c8pt.frame_accesses ∧
      listGetI pt1.entries 1 = some { page_number := 1, frame_number := EMPTY, metadata := 0 } ∧
      ¬ entry_resident { page_number := 1, frame_number := EMPTY, metadata := 0 } :=
  C8_mfu_miss_noop rfl (by decide) rfl (by decide)

/-- Claim C9: accessing an already-resident page changes nothing except,
under LRU only, the access counter of the frame recorded for that page,
which grows by exactly 1: the fault counter, every entry, every frame slot
and the FIFO queue are unchanged, and under FIFO and MFU the counters are
untouched as well. -/
theorem C9_hit_path {pt : page_table} {page : Int} {entry : page_table_entry}
    (hreach : Reachable pt)
    (hget : listGetI pt.entries page = some entry)
    (hres : entry_resident entry) :
    ∃ pt1, page_table_access_page pt page = some pt1 ∧
      pt1.faults = pt.faults ∧
      pt1.entries = pt.entries ∧
      pt1.frames = pt.frames ∧
      pt1.fifo_queue = pt.fifo_queue ∧
      pt1.algorithm = pt.algorithm ∧
      (pt.algorithm ≠ .LRU → pt1.frame_accesses = pt.frame_accesses) ∧
      (pt.algorithm = .LRU → ∃ c,
        listGetI pt.frame_accesses entry.frame_number = some c ∧
        pt1.frame_accesses = pt.frame_accesses.set entry.frame_number.toNat (c + 1)) := by
  by_cases halg : pt.algorithm = .LRU
  · have hwf := Reachable_WF hreach
    have hmem := listGetI_mem hget
    have hbd := hwf.1 entry hmem hres.2
    have hlen := hwf.2 halg
    obtain ⟨c, hc, hb⟩ := bumpI_some_of_lt (l := pt.frame_accesses) hbd.1
      (by rw [hlen]; exact hbd.2)
    refine ⟨_, access_hit_lru hget hres halg hb, rfl, rfl, rfl, rfl, rfl, ?_, ?_⟩
    · intro hne
      exact absurd halg hne
    · intro _
      exact ⟨c, hc, rfl⟩
  · refine ⟨pt, access_hit_not_lru hget hres halg, rfl, rfl, rfl, rfl, rfl, ?_, ?_⟩
    · intro _
      rfl
    · intro hl
      exact absurd hl halg

/-- Witness for C9 at a concrete reachable engine: FIFO, one frame, page 0
resident after one access; a second access to page 0 hits. -/
theorem C9_witness :
    ∃ pt1, page_table_access_page c9pt 0 = some pt1 ∧
      pt1.faults = c9pt.faults ∧
      pt1.entries = c9pt.entries ∧
      pt1.frames = c9pt.frames ∧
      pt1.fifo_queue = c9pt.fifo_queue ∧
      pt1.algorithm = c9pt.algorithm ∧
      (c9pt.algorithm ≠ .LRU → pt1.frame_accesses = c9pt.frame_accesses) ∧
      (c9pt.algorithm = .LRU → ∃ c,
        listGetI c9pt.frame_accesses ({ page_number := 0, frame_number := 0, metadata := 1 } : page_table_entry).frame_number = some c ∧
        pt1.frame_accesses = c9pt.frame_accesses.set ({ page_number := 0, frame_number := 0, metadata := 1 } : page_table_entry).frame_number.toNat (c + 1)) :=
  C9_hit_path ⟨1, 1, .FIFO, [0], rfl⟩ rfl (by decide)

/-- Claim C10: enqueue on a full FifoOrderQueue returns with no error signal
and leaves the queue entirely unchanged; the offered item is silently
dropped. -/
theorem C10_enqueue_full_drop (queue : page_queue) (item : page_table_entry)
    (h : is_full queue = true) : enqueue queue item = queue := by
  simp [enqueue, h]

/-- Witness for C10 at a concrete full queue of capacity 1. -/
theorem C10_witness : is_full c10q = true ∧ enqueue c10q ⟨6, 1, 1⟩ = c10q :=
  ⟨by decide, C10_enqueue_full_drop c10q ⟨6, 1, 1⟩ (by decide)⟩

/- Reading back the cell just written. -/
theorem listGetI_set_self {α : Type} {l : List α} {i : Int} (a : α)
    (h0 : 0 ≤ i) (hl : i < (l.length : Int)) :
    listGetI (l.set i.toNat a) i = some a := by
  rw [listGetI_eq_some]
  refine ⟨h0, ?_⟩
  rw [List.get?_set_eq_of_lt]
  omega

/- Concrete LRU run used by the C1 and C3 analyses: 3 pages, 2 frames,
references [1,0,1,2]. -/

def c1pt3 : page_table :=
  (page_table_run (page_table_create 3 2 .LRU) [1, 0, 1]).getD pt_default

def c1pt4 : page_table := (page_table_access_page c1pt3 2).getD pt_default

/-- Claim C1 (behavior of the code at the failing input): with LRU, 3 pages,
2 frames and references [1,0,1], the counters are [2,1] and the frames hold
[1,0], so on the next miss the claim's victim is frame 1 (strictly smallest
counter), occupied by page 0.  The code clears page 0's residency but then
passes the victim PAGE number (0) to place_in_memory as the FRAME argument,
so accessing page 2 stores it into frame 0, and frame 1 — the victim frame —
still holds page 0 instead of the new page. -/
theorem C1_swap_lru_code_eval :
    page_table_run (page_table_create 3 2 .LRU) [1, 0, 1] = some c1pt3 ∧
    c1pt3.frame_accesses = [2, 1] ∧
    c1pt3.frames = [1, 0] ∧
    page_table_access_page c1pt3 2 = some c1pt4 ∧
    c1pt4.frames = [2, 0] ∧
    listGetI c1pt4.frames 1 ≠ some 2 :=
  ⟨rfl, rfl, rfl, rfl, rfl, by decide⟩

def c2pt : page_table :=
  (page_table_run (page_table_create 2 1 .FIFO) [0, 1]).getD pt_default

/-- Claim C2 counterexample: in the reachable state after the FIFO run [0,1]
on a 2-page/1-frame engine, the evicted page 0 has its VALID bit clear (the
engine's own hit test treats it as non-resident) yet its frame_number is 0,
not EMPTY: the claimed equivalence resident(p) ⇔ frame_number(p) ≠ EMPTY
fails.  Moreover, in the reachable LRU state after [1,0,1,2] on 3 pages and
2 frames, page 1 still has its VALID bit set with frame_number 0 while
FrameTable[0] holds page 2: the agreement FrameTable[frame_number(p)] = p
also fails for a resident page. -/
theorem C2_counterexample :
    (Reachable c2pt ∧
      ∃ e, listGetI c2pt.entries 0 = some e ∧
        is_bit_set e.metadata VALID_BIT = false ∧ e.frame_number ≠ EMPTY) ∧
    (Reachable c1pt4 ∧
      ∃ e1, listGetI c1pt4.entries 1 = some e1 ∧
        is_bit_set e1.metadata VALID_BIT = true ∧
        listGetI c1pt4.frames e1.frame_number = some 2 ∧ e1.page_number = 1 ∧
        (2 : Int) ≠ 1) :=
  ⟨⟨⟨2, 1, .FIFO, [0, 1], rfl⟩,
    { page_number := 0, frame_number := 0, metadata := 0 }, rfl, rfl, by decide⟩,
   ⟨⟨3, 2, .LRU, [1, 0, 1, 2], rfl⟩,
    { page_number := 1, frame_number := 0, metadata := 1 }, rfl, rfl, rfl, rfl, by decide⟩⟩

/-- Claim C2 (amended): in every reachable state, every entry whose VALID bit
is set has frame_number ≠ EMPTY, indeed 0 ≤ frame_number < frame_count.  The
converse of the claimed equivalence fails (an evicted page keeps its last
frame number; only its VALID bit is cleared), and the frame-table agreement
FrameTable[frame_number(p)] = p can fail for a resident page under LRU. -/
theorem C2_amended {pt : page_table} (hreach : Reachable pt) :
    ∀ e ∈ pt.entries, is_bit_set e.metadata VALID_BIT = true →
      e.frame_number ≠ EMPTY ∧ 0 ≤ e.frame_number ∧
      e.frame_number < (pt.frames.length : Int) := by
  intro e he hb
  have hwf := Reachable_WF hreach
  have hbd := hwf.1 e he hb
  refine ⟨?_, hbd.1, hbd.2⟩
  have := hbd.1
  unfold EMPTY
  omega

/-- Witness for C2 (amended) at a concrete reachable engine with a resident
page. -/
theorem C2_amended_witness :
    ({ page_number := 0, frame_number := 0, metadata := 1 } : page_table_entry).frame_number ≠ EMPTY ∧
    0 ≤ ({ page_number := 0, frame_number := 0, metadata := 1 } : page_table_entry).frame_number ∧
    ({ page_number := 0, frame_number := 0, metadata := 1 } : page_table_entry).frame_number <
      (c9pt.frames.length : Int) :=
  C2_amended ⟨1, 1, .FIFO, [0], rfl⟩ _ (by decide) rfl

/-- Claim C3 counterexample: with LRU, 3 pages, 2 frames and references
[1,0,1,2], the final access places page 2 into frame 0 (the victim slip of
swap_lru), after which AccessCounters[0] = 3, not 1: placement increments
the counter, it never resets it. -/
theorem C3_counterexample :
    page_table_access_page c1pt3 2 = some c1pt4 ∧
    listGetI c1pt4.frames 0 = some 2 ∧
    (∃ e, listGetI c1pt4.entries 2 = some e ∧ e.frame_number = 0 ∧
      is_bit_set e.metadata VALID_BIT = true) ∧
    listGetI c1pt4.frame_accesses 0 = some 3 ∧ (3 : Int) ≠ 1 :=
  ⟨rfl, rfl, ⟨{ page_number := 2, frame_number := 0, metadata := 1 }, rfl, rfl, rfl⟩,
   rfl, by decide⟩

/-- Claim C3 (amended): under LRU a placement into frame f increments
AccessCounters[f] by exactly 1 over its previous value — so it equals 1 after
the first-ever load into f, because counters start at 0, but it is never
reset, and after a frame is reused it holds old value + 1 — and every hit on
a resident page increments the counter of its recorded frame by exactly 1. -/
theorem C3_amended :
    (∀ (pt : page_table) (page frame : Int) (pt1 : page_table),
        pt.algorithm = .LRU →
        place_in_memory pt page frame = some pt1 →
        ∃ c, listGetI pt.frame_accesses frame = some c ∧
          listGetI pt1.frame_accesses frame = some (c + 1)) ∧
    (∀ (pt : page_table) (page : Int) (entry : page_table_entry) (pt1 : page_table),
        pt.algorithm = .LRU →
        listGetI pt.entries page = some entry →
        entry_resident entry →
        page_table_access_page pt page = some pt1 →
        ∃ c, listGetI pt.frame_accesses entry.frame_number = some c ∧
          listGetI pt1.frame_accesses entry.frame_number = some (c + 1)) := by
  constructor
  · intro pt page frame pt1 halg h
    obtain ⟨e, he, hb, hent, hfr, halg1, hfl, hA, hB, hC⟩ := place_spec h
    obtain ⟨hq, hbump⟩ := hB halg
    obtain ⟨c, hgc, hsc⟩ := bumpI_eq_some.mp hbump
    rcases listSetI_eq_some.mp hsc with ⟨⟨h0, hl⟩, hset⟩
    refine ⟨c, hgc, ?_⟩
    rw [hset]
    exact listGetI_set_self _ h0 hl
  · intro pt page entry pt1 halg hget hres h
    simp only [page_table_access_page, hget] at h
    have hc : entry.frame_number ≠ EMPTY ∧ is_bit_set entry.metadata VALID_BIT = true := hres
    rw [if_pos hc] at h
    simp only [halg] at h
    split at h
    case h_2 => exact absurd h (by simp)
    case h_1 fa1 hfa =>
      cases h
      obtain ⟨c, hgc, hsc⟩ := bumpI_eq_some.mp hfa
      rcases listSetI_eq_some.mp hsc with ⟨⟨h0, hl⟩, hset⟩
      refine ⟨c, hgc, ?_⟩
      rw [hset]
      exact listGetI_set_self _ h0 hl

def c3place : page_table :=
  (place_in_memory (page_table_create 1 1 .LRU) 0 0).getD pt_default

def c3pt : page_table :=
  (page_table_run (page_table_create 1 1 .LRU) [0]).getD pt_default

def c3pt2 : page_table := (page_table_access_page c3pt 0).getD pt_default

/-- Witness for C3 (amended): a concrete LRU placement and a concrete LRU
hit, each bumping the relevant counter by one. -/
theorem C3_amended_witness :
    (∃ c, listGetI (page_table_create 1 1 .LRU).frame_accesses 0 = some c ∧
      listGetI c3place.frame_accesses 0 = some (c + 1)) ∧
    (∃ c, listGetI c3pt.frame_accesses
        ({ page_number := 0, frame_number := 0, metadata := 1 } : page_table_entry).frame_number = some c ∧
      listGetI c3pt2.frame_accesses
        ({ page_number := 0, frame_number := 0, metadata := 1 } : page_table_entry).frame_number = some (c + 1)) :=
  ⟨C3_amended.1 (page_table_create 1 1 .LRU) 0 0 c3place rfl rfl,
   C3_amended.2 c3pt 0 { page_number := 0, frame_number := 0, metadata := 1 } c3pt2
     rfl rfl (by decide) rfl⟩

/-- Claim C6 counterexample: a FIFO engine constructed with frame_count = 0
does not complete an in-range access: the miss path reaches swap_fifo, which
dereferences the NULL result of dequeuing the empty capacity-0 queue
(modeled as none), rather than completing normally with one more fault. -/
theorem C6_counterexample :
    (page_table_create 1 0 .FIFO).frames = [] ∧
    page_table_access_page (page_table_create 1 0 .FIFO) 0 = none :=
  ⟨rfl, rfl⟩

/- Every entry of a fresh engine is non-resident with frame_number EMPTY and
metadata 0. -/
theorem create_entries_nonresident (page_count frame_count : Nat)
    (algorithm : replacement_algorithm) :
    ∀ e ∈ (page_table_create page_count frame_count algorithm).entries,
      e.frame_number = EMPTY ∧ e.metadata = 0 := by
  intro e he
  simp only [page_table_create, List.mem_map, List.mem_range] at he
  obtain ⟨i, _, rfl⟩ := he
  exact ⟨rfl, rfl⟩

/- One in-range access on an MFU engine with no frames: one more fault and
nothing else. -/
theorem mfu_zero_frames_access {pt : page_table} {p : Int}
    (halg : pt.algorithm = .MFU) (hfr : pt.frames = [])
    (hnone : ∀ e ∈ pt.entries, ¬ entry_resident e)
    (h0 : 0 ≤ p) (hp : p < (pt.entries.length : Int)) :
    page_table_access_page pt p = some { pt with faults := pt.faults + 1 } := by
  have hlt : p.toNat < pt.entries.length := by omega
  have hget : listGetI pt.entries p = some (pt.entries.get ⟨p.toNat, hlt⟩) :=
    listGetI_eq_some.mpr ⟨h0, List.get?_eq_get hlt⟩
  have hmem : pt.entries.get ⟨p.toNat, hlt⟩ ∈ pt.entries := List.get_mem _ _ _
  have hmiss := hnone _ hmem
  simp only [page_table_access_page, hget]
  have hc : ¬((pt.entries.get ⟨p.toNat, hlt⟩).frame_number ≠ EMPTY ∧
      is_bit_set (pt.entries.get ⟨p.toNat, hlt⟩).metadata VALID_BIT = true) := hmiss
  rw [if_neg hc]
  have hfind : pt.frames.findIdx? (fun f => f == EMPTY) = none := by
    rw [hfr]
    rfl
  simp only [hfind, halg]

/- A whole in-range run on an MFU engine with no frames: one fault per
reference and nothing else. -/
theorem mfu_zero_frames_run {pt : page_table} {refs : List Int}
    (halg : pt.algorithm = .MFU) (hfr : pt.frames = [])
    (hnone : ∀ e ∈ pt.entries, ¬ entry_resident e)
    (hin : ∀ p ∈ refs, 0 ≤ p ∧ p < (pt.entries.length : Int)) :
    ∃ pt1, page_table_run pt refs = some pt1 ∧
      pt1.entries = pt.entries ∧ pt1.frames = pt.frames ∧
      pt1.algorithm = pt.algorithm ∧
      pt1.faults = pt.faults + refs.length ∧
      pt1.fifo_queue = pt.fifo_queue ∧ pt1.frame_accesses = pt.frame_accesses := by
  induction refs generalizing pt with
  | nil =>
    exact ⟨pt, rfl, rfl, rfl, rfl, by simp, rfl, rfl⟩
  | cons p ps ih =>
    have hp := hin p (by simp)
    have hacc := mfu_zero_frames_access halg hfr hnone hp.1 hp.2
    obtain ⟨pt1, hrun, hent, hfr1, halg1, hflt, hq1, hfa1⟩ :=
      @ih ({ pt with faults := pt.faults + 1 }) halg hfr hnone
        (fun q hq => hin q (by simp [hq]))
    refine ⟨pt1, ?_, hent, hfr1, halg1, ?_, hq1, hfa1⟩
    · unfold page_table_run
      rw [hacc]
      exact hrun
    · rw [hflt]
      simp only [List.length_cons]
      push_cast
      ring
/-- Claim C6 (amended): a frame_count = 0 engine yields the all-faults
behavior only under MFU: every in-range access completes, increments the
fault counter, and leaves every page non-resident with frame_number EMPTY.
Under FIFO the first in-range access dereferences the NULL result of
dequeuing the empty queue, and under LRU it reads frames[0] out of bounds
(both modeled as failure), instead of completing normally. -/
theorem C6_amended (page_count : Nat) (refs : List Int)
    (hin : ∀ p ∈ refs, 0 ≤ p ∧ p < (page_count : Int)) :
    ∃ pt, page_table_run (page_table_create page_count 0 .MFU) refs = some pt ∧
      pt.faults = refs.length ∧
      pt.frames = [] ∧
      ∀ e ∈ pt.entries, is_bit_set e.metadata VALID_BIT = false ∧
        e.frame_number = EMPTY := by
  have hnone : ∀ e ∈ (page_table_create page_count 0 .MFU).entries, ¬ entry_resident e := by
    intro e he
    obtain ⟨hfe, _⟩ := create_entries_nonresident page_count 0 .MFU e he
    intro hres
    exact hres.1 hfe
  have hlen : (page_table_create page_count 0 .MFU).entries.length = page_count := by
    show ((List.range page_count).map
      (fun (i : Nat) => ({ page_number := (i : Int), frame_number := EMPTY,
                           metadata := 0 } : page_table_entry))).length = page_count
    rw [List.length_map, List.length_range]
  have hin1 : ∀ p ∈ refs, 0 ≤ p ∧
      p < ((page_table_create page_count 0 .MFU).entries.length : Int) := by
    intro p hp
    refine ⟨(hin p hp).1, ?_⟩
    rw [hlen]
    exact (hin p hp).2
  obtain ⟨pt1, hrun, hent, hfr1, halg1, hflt, hq1, hfa1⟩ :=
    @mfu_zero_frames_run (page_table_create page_count 0 .MFU) refs rfl rfl hnone hin1
  refine ⟨pt1, hrun, by rw [hflt]; simp [page_table_create], by rw [hfr1]; rfl, ?_⟩
  intro e he
  rw [hent] at he
  obtain ⟨hfe, hme⟩ := create_entries_nonresident page_count 0 .MFU e he
  rw [hfe, hme]
  exact ⟨rfl, rfl⟩

/-- Witness for C6 (amended) at a concrete MFU engine with two pages and no
frames, run on [0,1,0]. -/
theorem C6_amended_witness :
    ∃ pt, page_table_run (page_table_create 2 0 .MFU) [0, 1, 0] = some pt ∧
      pt.faults = ([0, 1, 0] : List Int).length ∧
      pt.frames = [] ∧
      ∀ e ∈ pt.entries, is_bit_set e.metadata VALID_BIT = false ∧
        e.frame_number = EMPTY :=
  C6_amended 2 [0, 1, 0] (by decide)

/- Representation predicate for the circular buffer: the queue q currently
holds exactly the entries of es, front first.  The window condition locates
es.get k at array position (front + k) mod capacity; slots outside the
window may be anything (including uninitialized). -/
def QRep (q : page_queue) (es : List page_table_entry) : Prop :=
  q.array.length = q.capacity ∧
  q.size = (es.length : Int) ∧
  es.length ≤ q.capacity ∧
  (0 < q.capacity →
    0 ≤ q.front ∧ q.front < (q.capacity : Int) ∧
    q.rear = (q.front + q.size - 1) % (q.capacity : Int)) ∧
  (∀ (k : Nat) (e : page_table_entry), es.get? k = some e →
    listGetI q.array ((q.front + (k : Int)) % (q.capacity : Int)) = some (some e))

/- Two window positions inside one lap of the buffer coincide only at the
same offset. -/
theorem window_inj {front c : Int} {k l : Nat}
    (hk : (k : Int) < c) (hl : (l : Int) < c)
    (he : (front + (k : Int)) % c = (front + (l : Int)) % c) : k = l := by
  rw [Int.emod_eq_emod_iff_emod_sub_eq_zero] at he
  have hd : (front + (k : Int)) - (front + (l : Int)) = (k : Int) - (l : Int) := by ring
  rw [hd] at he
  have hdvd : c ∣ ((k : Int) - (l : Int)) := Int.dvd_of_emod_eq_zero he
  have hzero : (k : Int) - (l : Int) = 0 := by
    apply Int.eq_zero_of_abs_lt_dvd hdvd
    rw [abs_lt]
    omega
  omega

/- A fresh queue represents the empty list. -/
theorem QRep_create (c : Nat) : QRep (create_queue c) [] := by
  refine ⟨by simp [create_queue], by simp [create_queue], by simp, ?_, ?_⟩
  · intro hc
    have hc1 : 0 < c := hc
    have hcI : (0 : Int) < (c : Int) := by exact_mod_cast hc1
    refine ⟨le_refl _, ?_, ?_⟩
    · show (0 : Int) < (c : Int)
      exact hcI
    · show ((c : Int) - 1) = ((0 : Int) + 0 - 1) % (c : Int)
      have h1 : ((0 : Int) + 0 - 1) = -1 := by ring
      rw [h1]
      have h2 : (-1 : Int) % (c : Int) = ((c : Int) - 1) % (c : Int) := by
        rw [Int.emod_eq_emod_iff_emod_sub_eq_zero]
        have h3 : (-1 : Int) - ((c : Int) - 1) = -1 * c := by ring
        rw [h3]
        simp [Int.mul_emod_left]
      rw [h2, Int.emod_eq_of_lt (by omega) (by omega)]
  · intro k e hk
    simp at hk

/- Enqueueing into a non-full queue appends to the represented list. -/
theorem QRep_enqueue {q : page_queue} {es : List page_table_entry}
    (h : QRep q es) (hlt : es.length < q.capacity) (e : page_table_entry) :
    QRep (enqueue q e) (es ++ [e]) := by
  obtain ⟨hlen, hsz, hle, hcpos, hwin⟩ := h
  have hc : 0 < q.capacity := Nat.lt_of_le_of_lt (Nat.zero_le _) hlt
  have hcI : 0 < (q.capacity : Int) := by exact_mod_cast hc
  obtain ⟨hf0, hflt, hrear⟩ := hcpos hc
  have hnotfull : is_full q = false := by
    simp only [is_full, hsz, beq_eq_false_iff_ne, ne_eq]
    intro hcon
    have : es.length = q.capacity := by exact_mod_cast hcon
    omega
  have henq : enqueue q e =
      { q with rear := (q.rear + 1) % (q.capacity : Int),
               array := q.array.set ((q.rear + 1) % (q.capacity : Int)).toNat (some e),
               size := q.size + 1 } := by
    unfold enqueue
    rw [hnotfull]
    simp
  have hr1 : (q.rear + 1) % (q.capacity : Int) =
      (q.front + (es.length : Int)) % (q.capacity : Int) := by
    rw [hrear, Int.emod_add_emod, hsz]
    ring_nf
  rw [henq]
  refine ⟨?_, ?_, ?_, ?_, ?_⟩
  · show (q.array.set _ _).length = q.capacity
    rw [List.length_set]
    exact hlen
  · show q.size + 1 = ((es ++ [e]).length : Int)
    rw [List.length_append, List.length_singleton]
    omega
  · show (es ++ [e]).length ≤ q.capacity
    rw [List.length_append, List.length_singleton]
    omega
  · intro _
    refine ⟨hf0, hflt, ?_⟩
    show (q.rear + 1) % (q.capacity : Int) = (q.front + (q.size + 1) - 1) % (q.capacity : Int)
    rw [hr1, hsz]
    ring_nf
  · intro k x hk
    by_cases hcase : k < es.length
    · rw [List.get?_append hcase] at hk
      have hwk := hwin k x hk
      have hkI : (k : Int) < (q.capacity : Int) := by
        have hkn : k < q.capacity := by omega
        exact_mod_cast hkn
      have hlenI : ((es.length : Nat) : Int) < (q.capacity : Int) := by exact_mod_cast hlt
      have hne : ((q.rear + 1) % (q.capacity : Int)).toNat ≠
          ((q.front + (k : Int)) % (q.capacity : Int)).toNat := by
        rw [hr1]
        intro hcon
        have hnn1 : 0 ≤ (q.front + (k : Int)) % (q.capacity : Int) :=
          Int.emod_nonneg _ (by omega)
        have hnn2 : 0 ≤ (q.front + (es.length : Int)) % (q.capacity : Int) :=
          Int.emod_nonneg _ (by omega)
        have heq : (q.front + (k : Int)) % (q.capacity : Int) =
            (q.front + (es.length : Int)) % (q.capacity : Int) := by omega
        have hkl := window_inj hkI hlenI heq
        omega
      rw [listGetI_eq_some] at hwk ⊢
      refine ⟨hwk.1, ?_⟩
      rw [List.get?_set_ne _ _ hne]
      exact hwk.2
    · have hkeq : k = es.length := by
        have hk2 := hk
        rw [List.get?_eq_some] at hk2
        obtain ⟨hbound, _⟩ := hk2
        simp at hbound
        omega
      subst hkeq
      rw [List.get?_concat_length] at hk
      injection hk with hx
      subst hx
      have hnn : 0 ≤ (q.rear + 1) % (q.capacity : Int) := Int.emod_nonneg _ (by omega)
      have hltI : (q.rear + 1) % (q.capacity : Int) < (q.capacity : Int) :=
        Int.emod_lt_of_pos _ hcI
      rw [← hr1, listGetI_eq_some]
      refine ⟨hnn, ?_⟩
      have hltc : ((q.rear + 1) % (q.capacity : Int)).toNat < (q.array.set ((q.rear + 1) % (q.capacity : Int)).toNat (some e)).length := by
        rw [List.length_set]
        omega
      rw [List.get?_set_eq_of_lt]
      rw [List.length_set] at hltc
      exact hltc

/- Dequeueing from a non-empty queue removes and returns the head of the
represented list. -/
theorem QRep_dequeue {q : page_queue} {e : page_table_entry} {es : List page_table_entry}
    (h : QRep q (e :: es)) :
    dequeue q = (some e,
      { q with front := (q.front + 1) % (q.capacity : Int), size := q.size - 1 }) ∧
    QRep { q with front := (q.front + 1) % (q.capacity : Int), size := q.size - 1 } es := by
  obtain ⟨hlen, hsz, hle, hcpos, hwin⟩ := h
  have hle1 : es.length + 1 ≤ q.capacity := by simpa using hle
  have hc : 0 < q.capacity := by omega
  have hcI : 0 < (q.capacity : Int) := by exact_mod_cast hc
  obtain ⟨hf0, hflt, hrear⟩ := hcpos hc
  have hszc : q.size = ((es.length : Int) + 1) := by
    rw [hsz, List.length_cons]
    push_cast
    ring
  have hnotempty : is_empty q = false := by
    simp only [is_empty, beq_eq_false_iff_ne, ne_eq]
    omega
  have hitem := hwin 0 e rfl
  have hfront : (q.front + ((0 : Nat) : Int)) % (q.capacity : Int) = q.front := by
    have h0 : (q.front + ((0 : Nat) : Int)) = q.front := by push_cast; ring
    rw [h0]
    exact Int.emod_eq_of_lt hf0 hflt
  rw [hfront] at hitem
  have hdq : dequeue q = (some e,
      { q with front := (q.front + 1) % (q.capacity : Int), size := q.size - 1 }) := by
    unfold dequeue
    rw [hnotempty]
    simp [hitem]
  refine ⟨hdq, ?_, ?_, ?_, ?_, ?_⟩
  · exact hlen
  · show q.size - 1 = (es.length : Int)
    omega
  · show es.length ≤ q.capacity
    omega
  · intro _
    refine ⟨Int.emod_nonneg _ (by omega), Int.emod_lt_of_pos _ hcI, ?_⟩
    show q.rear = ((q.front + 1) % (q.capacity : Int) + (q.size - 1) - 1) % (q.capacity : Int)
    have ha : (q.front + 1) % (q.capacity : Int) + (q.size - 1) - 1 =
        (q.front + 1) % (q.capacity : Int) + (q.size - 2) := by ring
    rw [ha, Int.emod_add_emod]
    have hb : q.front + 1 + (q.size - 2) = q.front + q.size - 1 := by ring
    rw [hb, hrear]
  · intro k x hk
    have hk1 : (e :: es).get? (k + 1) = some x := by simpa using hk
    have hw := hwin (k + 1) x hk1
    show listGetI q.array
        (((q.front + 1) % (q.capacity : Int) + (k : Int)) % (q.capacity : Int)) = some (some x)
    rw [Int.emod_add_emod]
    have hidx : (q.front + 1 + (k : Int)) = (q.front + ((k + 1 : Nat) : Int)) := by
      push_cast
      ring
    rw [hidx]
    exact hw

/- Updating one cell leaves every other Int-indexed read unchanged. -/
theorem listGetI_set_ne {α : Type} {l : List α} {i j : Int} (a : α)
    (hi : 0 ≤ i) (hij : i ≠ j) :
    listGetI (l.set i.toNat a) j = listGetI l j := by
  unfold listGetI
  split
  case isTrue hj =>
    rw [List.get?_set_ne]
    intro hcon
    omega
  case isFalse => rfl

/- The frame indices 0..n-1 as integers. -/
def castRange (n : Nat) : List Int := (List.range n).map (fun (i : Nat) => (i : Int))

theorem castRange_nodup (n : Nat) : (castRange n).Nodup :=
  (List.nodup_range n).map (fun a b hab => by exact_mod_cast hab)

theorem castRange_length (n : Nat) : (castRange n).length = n := by
  unfold castRange
  rw [List.length_map, List.length_range]

theorem mem_castRange {n : Nat} {x : Int} : x ∈ castRange n ↔ 0 ≤ x ∧ x < (n : Int) := by
  unfold castRange
  rw [List.mem_map]
  constructor
  · rintro ⟨i, hi, rfl⟩
    rw [List.mem_range] at hi
    constructor
    · exact Int.natCast_nonneg i
    · exact_mod_cast hi
  · rintro ⟨h0, hn⟩
    refine ⟨x.toNat, ?_, Int.toNat_of_nonneg h0⟩
    rw [List.mem_range]
    omega

/- The simulation invariant for a FIFO engine: es is the logical content of
the circular queue, front first; each record accurately describes a distinct
resident page in a distinct frame; every VALID page is recorded; entries are
self-indexed; and every occupied frame slot is owned by some record. -/
def FifoInv (pt : page_table) (es : List page_table_entry) : Prop :=
  pt.algorithm = .FIFO ∧
  QRep pt.fifo_queue es ∧
  pt.fifo_queue.capacity = pt.frames.length ∧
  (∀ e ∈ es,
    (∃ cur, listGetI pt.entries e.page_number = some cur ∧
       cur.frame_number = e.frame_number ∧ is_bit_set cur.metadata VALID_BIT = true) ∧
    listGetI pt.frames e.frame_number = some e.page_number) ∧
  (es.map page_table_entry.page_number).Nodup ∧
  (es.map page_table_entry.frame_number).Nodup ∧
  (∀ (p : Int) (cur : page_table_entry), listGetI pt.entries p = some cur →
     is_bit_set cur.metadata VALID_BIT = true →
     p ∈ es.map page_table_entry.page_number) ∧
  (∀ (p : Int) (cur : page_table_entry), listGetI pt.entries p = some cur →
     cur.page_number = p) ∧
  (∀ (f : Nat) (v : Int), pt.frames.get? f = some v → v ≠ EMPTY →
     ∃ e ∈ es, e.frame_number = (f : Int) ∧ v = e.page_number)

/- In a FifoInv state, every recorded frame index is a genuine frame index. -/
theorem FifoInv_frame_sub {pt : page_table} {es : List page_table_entry}
    (hinv : FifoInv pt es) :
    ∀ x ∈ es.map page_table_entry.frame_number, 0 ≤ x ∧ x < (pt.frames.length : Int) := by
  obtain ⟨_, _, _, hent, _, _, _, _, _⟩ := hinv
  intro x hx
  rw [List.mem_map] at hx
  obtain ⟨e, he, rfl⟩ := hx
  exact listGetI_lt_length (hent e he).2

/- A recorded page number is never the EMPTY sentinel. -/
theorem FifoInv_page_nonneg {pt : page_table} {es : List page_table_entry}
    (hinv : FifoInv pt es) :
    ∀ e ∈ es, 0 ≤ e.page_number := by
  obtain ⟨_, _, _, hent, _, _, _, _, _⟩ := hinv
  intro e he
  obtain ⟨⟨cur, hc, _, _⟩, _⟩ := hent e he
  exact (listGetI_lt_length hc).1

/- With no EMPTY frame left, the queue records exactly frame_count pages. -/
theorem fifo_full_length {pt : page_table} {es : List page_table_entry}
    (hinv : FifoInv pt es)
    (hfull : pt.frames.findIdx? (fun f => f == EMPTY) = none) :
    es.length = pt.frames.length := by
  have hsub := FifoInv_frame_sub hinv
  obtain ⟨_, _, _, hent, _, hnf, _, _, hocc⟩ := hinv
  have hsub2 : es.map page_table_entry.frame_number ⊆ castRange pt.frames.length := by
    intro x hx
    rw [mem_castRange]
    exact hsub x hx
  have hsub3 : castRange pt.frames.length ⊆ es.map page_table_entry.frame_number := by
    intro x hx
    rw [mem_castRange] at hx
    have hlt : x.toNat < pt.frames.length := by omega
    have hv : pt.frames.get? x.toNat = some (pt.frames.get ⟨x.toNat, hlt⟩) :=
      List.get?_eq_get hlt
    have hne : pt.frames.get ⟨x.toNat, hlt⟩ ≠ EMPTY := by
      rw [List.findIdx?_eq_none_iff] at hfull
      have := hfull (pt.frames.get ⟨x.toNat, hlt⟩) (List.get_mem _ _ _)
      simpa using this
    obtain ⟨e, he, hef, _⟩ := hocc x.toNat _ hv hne
    rw [List.mem_map]
    refine ⟨e, he, ?_⟩
    rw [hef, Int.toNat_of_nonneg hx.1]
  have h1 : (es.map page_table_entry.frame_number).length ≤
      (castRange pt.frames.length).length :=
    (List.subperm_of_subset hnf hsub2).length_le
  have h2 : (castRange pt.frames.length).length ≤
      (es.map page_table_entry.frame_number).length :=
    (List.subperm_of_subset (castRange_nodup _) hsub3).length_le
  rw [castRange_length] at h1 h2
  rw [List.length_map] at h1 h2
  omega

/- A free frame bounds the queue strictly below frame_count. -/
theorem fifo_free_length {pt : page_table} {es : List page_table_entry} {i : Nat}
    (hinv : FifoInv pt es)
    (hfind : pt.frames.findIdx? (fun f => f == EMPTY) = some i) :
    es.length < pt.frames.length ∧ i < pt.frames.length ∧
    pt.frames.get? i = some EMPTY ∧ (i : Int) ∉ es.map page_table_entry.frame_number := by
  have hsub := FifoInv_frame_sub hinv
  have hcap := hinv.2.2.1
  have hle : es.length ≤ pt.frames.length := by
    have := hinv.2.1.2.2.1
    omega
  obtain ⟨_, _, _, hent, _, hnf, _, _, hocc⟩ := hinv
  rw [List.findIdx?_eq_some_iff_getElem] at hfind
  obtain ⟨hilt, hieq, _⟩ := hfind
  have hgeti : pt.frames.get? i = some EMPTY := by
    rw [List.get?_eq_some]
    refine ⟨hilt, ?_⟩
    have : pt.frames[i] = EMPTY := by simpa using hieq
    simpa [List.get_eq_getElem] using this
  have hnotin : (i : Int) ∉ es.map page_table_entry.frame_number := by
    intro hmem
    rw [List.mem_map] at hmem
    obtain ⟨e, he, hef⟩ := hmem
    have hfr := (hent e he).2
    rw [hef] at hfr
    rw [listGetI_eq_some] at hfr
    rw [Int.toNat_natCast] at hfr
    rw [hgeti] at hfr
    have : EMPTY = e.page_number := by
      have := hfr.2
      injection this
    obtain ⟨⟨cur, hc, _, _⟩, _⟩ := hent e he
    have hnn := (listGetI_lt_length hc).1
    rw [← this] at hnn
    unfold EMPTY at hnn
    omega
  refine ⟨?_, hilt, hgeti, hnotin⟩
  rcases Nat.lt_or_ge es.length pt.frames.length with hlt | hge
  · exact hlt
  · exfalso
    have heq : es.length = pt.frames.length := by omega
    have hsub2 : es.map page_table_entry.frame_number ⊆ castRange pt.frames.length := by
      intro x hx
      rw [mem_castRange]
      exact hsub x hx
    have hperm : (es.map page_table_entry.frame_number).Perm (castRange pt.frames.length) :=
      (List.subperm_of_subset hnf hsub2).perm_of_length_le
        (by rw [castRange_length, List.length_map]; omega)
    have : (i : Int) ∈ es.map page_table_entry.frame_number := by
      rw [hperm.mem_iff, mem_castRange]
      constructor
      · exact Int.natCast_nonneg i
      · exact_mod_cast hilt
    exact hnotin this

/- Reading any entry of a fresh engine yields exactly the initial record for
that page number. -/
theorem create_entries_get {page_count frame_count : Nat}
    {algorithm : replacement_algorithm} {p : Int} {cur : page_table_entry}
    (h : listGetI (page_table_create page_count frame_count algorithm).entries p = some cur) :
    0 ≤ p ∧ p.toNat < page_count ∧
    cur = { page_number := p, frame_number := EMPTY, metadata := 0 } := by
  rw [listGetI_eq_some] at h
  obtain ⟨h0, hget⟩ := h
  have hmap : ((List.range page_count).map
      (fun (i : Nat) => ({ page_number := (i : Int), frame_number := EMPTY,
                           metadata := 0 } : page_table_entry))).get? p.toNat = some cur := hget
  rw [List.get?_map] at hmap
  by_cases hlt : p.toNat < page_count
  · rw [List.get?_range hlt] at hmap
    simp only [Option.map_some'] at hmap
    injection hmap with hcur
    refine ⟨h0, hlt, ?_⟩
    rw [← hcur]
    have : ((p.toNat : Nat) : Int) = p := Int.toNat_of_nonneg h0
    simp [this]
  · exfalso
    have : (List.range page_count).get? p.toNat = none := by
      rw [List.get?_eq_none, List.length_range]
      omega
    rw [this] at hmap
    simp at hmap

/- A fresh FIFO engine satisfies the simulation invariant with the empty
record list. -/
theorem FifoInv_create (page_count frame_count : Nat) :
    FifoInv (page_table_create page_count frame_count .FIFO) [] := by
  refine ⟨rfl, QRep_create frame_count, ?_, ?_, ?_, ?_, ?_, ?_, ?_⟩
  · show (create_queue frame_count).capacity = (List.replicate frame_count EMPTY).length
    simp [create_queue]
  · intro e he
    simp at he
  · simp
  · simp
  · intro p cur hc hb
    obtain ⟨_, _, rfl⟩ := create_entries_get hc
    simp [is_bit_set, VALID_BIT] at hb
  · intro p cur hc
    obtain ⟨_, _, rfl⟩ := create_entries_get hc
    rfl
  · intro f v hv hne
    have hrep : (page_table_create page_count frame_count .FIFO).frames =
        List.replicate frame_count EMPTY := rfl
    rw [hrep] at hv
    rw [List.get?_eq_some] at hv
    obtain ⟨hlt, hg⟩ := hv
    rw [List.get_replicate] at hg
    exact absurd hg.symm hne

/- In a FifoInv state, a page is VALID exactly when it is recorded in the
queue. -/
theorem fifo_resident_iff {pt : page_table} {es : List page_table_entry}
    (hinv : FifoInv pt es) (q : Int) :
    (∃ cur, listGetI pt.entries q = some cur ∧
      is_bit_set cur.metadata VALID_BIT = true) ↔
    q ∈ es.map page_table_entry.page_number := by
  obtain ⟨_, _, _, hent, _, _, hval, _, _⟩ := hinv
  constructor
  · rintro ⟨cur, hc, hb⟩
    exact hval q cur hc hb
  · intro hq
    rw [List.mem_map] at hq
    obtain ⟨e, he, rfl⟩ := hq
    obtain ⟨⟨cur, hc, _, hb⟩, _⟩ := hent e he
    exact ⟨cur, hc, hb⟩

/- In a FifoInv state, a VALID entry records a genuine frame index. -/
theorem fifo_valid_frame {pt : page_table} {es : List page_table_entry}
    (hinv : FifoInv pt es) {p : Int} {cur : page_table_entry}
    (hc : listGetI pt.entries p = some cur)
    (hb : is_bit_set cur.metadata VALID_BIT = true) :
    0 ≤ cur.frame_number ∧ cur.frame_number < (pt.frames.length : Int) := by
  obtain ⟨_, _, _, hent, _, _, hval, _, _⟩ := hinv
  have hp := hval p cur hc hb
  rw [List.mem_map] at hp
  obtain ⟨e, he, hep⟩ := hp
  obtain ⟨⟨cur2, hc2, hfn2, _⟩, hfr⟩ := hent e he
  rw [hep, hc] at hc2
  injection hc2 with hcc
  rw [← hcc] at hfn2
  rw [hfn2]
  exact listGetI_lt_length hfr

/- In a FifoInv state, the code's hit condition is equivalent to the VALID
bit alone. -/
theorem fifo_hit_iff {pt : page_table} {es : List page_table_entry}
    (hinv : FifoInv pt es) {p : Int} {cur : page_table_entry}
    (hc : listGetI pt.entries p = some cur) :
    (cur.frame_number ≠ EMPTY ∧ is_bit_set cur.metadata VALID_BIT = true) ↔
    is_bit_set cur.metadata VALID_BIT = true := by
  constructor
  · exact And.right
  · intro hb
    refine ⟨?_, hb⟩
    have := (fifo_valid_frame hinv hc hb).1
    unfold EMPTY
    omega

/- enqueue never changes the capacity. -/
theorem enqueue_capacity (queue : page_queue) (item : page_table_entry) :
    (enqueue queue item).capacity = queue.capacity := by
  unfold enqueue
  split <;> rfl

/- Computing place_in_memory on a FIFO engine from its preconditions. -/
theorem place_fifo_eq {pt : page_table} {page frame : Int} {e : page_table_entry}
    (halg : pt.algorithm = .FIFO)
    (hg : listGetI pt.entries page = some e)
    (hf0 : 0 ≤ frame) (hflt : frame < (pt.frames.length : Int)) :
    place_in_memory pt page frame = some
      { pt with frames := pt.frames.set frame.toNat page,
                entries := pt.entries.set page.toNat
                  ({ e with frame_number := frame,
                            metadata := e.metadata ||| (1 <<< VALID_BIT) }),
                fifo_queue := enqueue pt.fifo_queue
                  ({ e with frame_number := frame,
                            metadata := e.metadata ||| (1 <<< VALID_BIT) }) } := by
  have hsf : listSetI pt.frames frame page = some (pt.frames.set frame.toNat page) :=
    listSetI_eq_some.mpr ⟨⟨hf0, hflt⟩, rfl⟩
  have hpb := listGetI_lt_length hg
  have hse : listSetI pt.entries page
      ({ e with frame_number := frame,
                metadata := e.metadata ||| (1 <<< VALID_BIT) }) =
      some (pt.entries.set page.toNat
        ({ e with frame_number := frame,
                  metadata := e.metadata ||| (1 <<< VALID_BIT) })) :=
    listSetI_eq_some.mpr ⟨hpb, rfl⟩
  simp only [place_in_memory, hsf, hg, hse, halg]

/- Miss with a free frame on a FIFO engine: the page is loaded into the
first EMPTY frame, its record is appended to the queue, and the invariant is
preserved. -/
theorem fifo_step_free {pt : page_table} {es : List page_table_entry}
    {p : Int} {entry : page_table_entry} {i : Nat}
    (hinv : FifoInv pt es)
    (hget : listGetI pt.entries p = some entry)
    (hmiss : ¬(entry.frame_number ≠ EMPTY ∧ is_bit_set entry.metadata VALID_BIT = true))
    (hfind : pt.frames.findIdx? (fun f => f == EMPTY) = some i) :
    page_table_access_page pt p = some
      { pt with faults := pt.faults + 1,
                frames := pt.frames.set ((i : Int)).toNat p,
                entries := pt.entries.set p.toNat
                  ({ entry with frame_number := (i : Int),
                                metadata := entry.metadata ||| (1 <<< VALID_BIT) }),
                fifo_queue := enqueue pt.fifo_queue
                  ({ entry with frame_number := (i : Int),
                                metadata := entry.metadata ||| (1 <<< VALID_BIT) }) } ∧
    FifoInv
      { pt with faults := pt.faults + 1,
                frames := pt.frames.set ((i : Int)).toNat p,
                entries := pt.entries.set p.toNat
                  ({ entry with frame_number := (i : Int),
                                metadata := entry.metadata ||| (1 <<< VALID_BIT) }),
                fifo_queue := enqueue pt.fifo_queue
                  ({ entry with frame_number := (i : Int),
                                metadata := entry.metadata ||| (1 <<< VALID_BIT) }) }
      (es ++ [{ entry with frame_number := (i : Int),
                           metadata := entry.metadata ||| (1 <<< VALID_BIT) }]) := by
  obtain ⟨hfree_lt, hilt, hgeti, hinotin⟩ := fifo_free_length hinv hfind
  have hbfalse : is_bit_set entry.metadata VALID_BIT = false := by
    cases hb : is_bit_set entry.metadata VALID_BIT
    · rfl
    · exact absurd ((fifo_hit_iff hinv hget).mpr hb) hmiss
  have hpb := listGetI_lt_length hget
  obtain ⟨halg, hq, hcap, hent, hnp, hnf, hval, hidx, hocc⟩ := hinv
  have hpnotin : p ∉ es.map page_table_entry.page_number := by
    intro hm
    rw [List.mem_map] at hm
    obtain ⟨e, he, hep⟩ := hm
    obtain ⟨⟨cur, hc, _, hb⟩, _⟩ := hent e he
    rw [hep, hget] at hc
    injection hc with hcc
    rw [← hcc] at hb
    rw [hbfalse] at hb
    cases hb
  have hentp : entry.page_number = p := hidx p entry hget
  have hi0 : (0 : Int) ≤ (i : Int) := Int.natCast_nonneg i
  have hiflt : (i : Int) < (pt.frames.length : Int) := by exact_mod_cast hilt
  have hacc : page_table_access_page pt p =
      place_in_memory { pt with faults := pt.faults + 1 } p (i : Int) := by
    simp only [page_table_access_page, hget]
    rw [if_neg hmiss]
    simp only [hfind]
  have hplace := @place_fifo_eq ({ pt with faults := pt.faults + 1 }) p ((i : Nat) : Int)
    entry halg hget hi0 hiflt
  constructor
  · rw [hacc, hplace]
  · refine ⟨halg, ?_, ?_, ?_, ?_, ?_, ?_, ?_, ?_⟩
    · exact QRep_enqueue hq (by omega) _
    · show (enqueue pt.fifo_queue _).capacity = (pt.frames.set ((i : Int)).toNat p).length
      rw [enqueue_capacity, List.length_set]
      exact hcap
    · intro e he
      rw [List.mem_append] at he
      rcases he with he | he
      · obtain ⟨⟨cur, hc, hfn, hb⟩, hfr⟩ := hent e he
        have hpne : p ≠ e.page_number := by
          intro hcon
          exact hpnotin (by rw [hcon]; exact List.mem_map_of_mem _ he)
        have hine : (i : Int) ≠ e.frame_number := by
          intro hcon
          exact hinotin (by rw [hcon]; exact List.mem_map_of_mem _ he)
        refine ⟨⟨cur, ?_, hfn, hb⟩, ?_⟩
        · show listGetI (pt.entries.set p.toNat _) e.page_number = some cur
          rw [listGetI_set_ne _ hpb.1 hpne]
          exact hc
        · show listGetI (pt.frames.set ((i : Int)).toNat p) e.frame_number = some e.page_number
          rw [listGetI_set_ne _ hi0 hine]
          exact hfr
      · rw [List.mem_singleton] at he
        subst he
        constructor
        · refine ⟨(⟨entry.page_number, (i : Int),
              entry.metadata ||| (1 <<< VALID_BIT)⟩ : page_table_entry),
            ?_, rfl, is_bit_set_set _⟩
          show listGetI (pt.entries.set p.toNat _) entry.page_number = some _
          rw [hentp]
          exact listGetI_set_self _ hpb.1 hpb.2
        · show listGetI (pt.frames.set ((i : Int)).toNat p) (i : Int) = some entry.page_number
          rw [hentp]
          exact listGetI_set_self _ hi0 hiflt
    · rw [List.map_append]
      refine List.Nodup.append hnp (by simp) ?_
      simp only [List.map_singleton]
      rw [List.disjoint_singleton]
      show entry.page_number ∉ es.map page_table_entry.page_number
      rw [hentp]
      exact hpnotin
    · rw [List.map_append]
      refine List.Nodup.append hnf (by simp) ?_
      simp only [List.map_singleton]
      rw [List.disjoint_singleton]
      show (i : Int) ∉ es.map page_table_entry.frame_number
      exact hinotin
    · intro p1 cur hc hb
      rw [List.map_append]
      by_cases hpp : p1 = p
      · subst hpp
        rw [List.mem_append]
        right
        simp [hentp]
      · rw [listGetI_set_ne _ hpb.1 (fun hcon => hpp hcon.symm)] at hc
        rw [List.mem_append]
        left
        exact hval p1 cur hc hb
    · intro p1 cur hc
      by_cases hpp : p1 = p
      · subst hpp
        have hself := listGetI_set_self (l := pt.entries)
            (⟨entry.page_number, (i : Int), entry.metadata ||| (1 <<< VALID_BIT)⟩ : page_table_entry)
            hpb.1 hpb.2
        rw [hself] at hc
        injection hc with hcc
        rw [← hcc]
        exact hentp
      · rw [listGetI_set_ne _ hpb.1 (fun hcon => hpp hcon.symm)] at hc
        exact hidx p1 cur hc
    · intro f v hv hne
      by_cases hfi : f = i
      · have hvp : v = p := by
          have hset : (pt.frames.set ((i : Int)).toNat p).get? f = some p := by
            rw [hfi, Int.toNat_natCast]
            exact List.get?_set_eq_of_lt _ hilt
          rw [hset] at hv
          injection hv with hvv
          exact hvv.symm
        subst hvp
        refine ⟨_, by rw [List.mem_append]; right; exact List.mem_singleton.mpr rfl, ?_, ?_⟩
        · show ((i : Nat) : Int) = ((f : Nat) : Int)
          exact_mod_cast hfi.symm
        · exact hentp.symm
      · have hvold : pt.frames.get? f = some v := by
          rw [Int.toNat_natCast] at hv
          rw [List.get?_set_ne _ _ (fun hcon => hfi hcon.symm)] at hv
          exact hv
        obtain ⟨e, he, hef, hev⟩ := hocc f v hvold hne
        exact ⟨e, by rw [List.mem_append]; left; exact he, hef, hev⟩

/- Miss with all frames occupied on a FIFO engine: the head of the queue is
evicted, the new page takes exactly its frame, the new record is appended,
and the invariant is preserved. -/
theorem fifo_step_swap {pt : page_table} {e : page_table_entry}
    {es : List page_table_entry} {p : Int} {entry : page_table_entry}
    (hinv : FifoInv pt (e :: es))
    (hget : listGetI pt.entries p = some entry)
    (hmiss : ¬(entry.frame_number ≠ EMPTY ∧ is_bit_set entry.metadata VALID_BIT = true))
    (hfind : pt.frames.findIdx? (fun f => f == EMPTY) = none) :
    ∃ pt1, page_table_access_page pt p = some pt1 ∧
      FifoInv pt1 (es ++ [(⟨entry.page_number, e.frame_number,
        entry.metadata ||| (1 <<< VALID_BIT)⟩ : page_table_entry)]) ∧
      pt1.frames.length = pt.frames.length ∧
      listGetI pt.frames e.frame_number = some e.page_number ∧
      (∃ cure, listGetI pt.entries e.page_number = some cure ∧
        cure.frame_number = e.frame_number ∧ is_bit_set cure.metadata VALID_BIT = true) ∧
      (∃ cur2, listGetI pt1.entries e.page_number = some cur2 ∧
        is_bit_set cur2.metadata VALID_BIT = false) ∧
      listGetI pt1.frames e.frame_number = some p ∧
      (∃ cur3, listGetI pt1.entries p = some cur3 ∧
        cur3.frame_number = e.frame_number ∧ is_bit_set cur3.metadata VALID_BIT = true) := by
  have hbfalse : is_bit_set entry.metadata VALID_BIT = false := by
    cases hb : is_bit_set entry.metadata VALID_BIT
    · rfl
    · exact absurd ((fifo_hit_iff hinv hget).mpr hb) hmiss
  obtain ⟨halg, hq, hcap, hent, hnp, hnf, hval, hidx, hocc⟩ := hinv
  have hpb := listGetI_lt_length hget
  have hentp : entry.page_number = p := hidx p entry hget
  have hpnotin : p ∉ (e :: es).map page_table_entry.page_number := by
    intro hm
    rw [List.mem_map] at hm
    obtain ⟨x, hx, hxp⟩ := hm
    obtain ⟨⟨cur, hc, _, hb⟩, _⟩ := hent x hx
    rw [hxp, hget] at hc
    injection hc with hcc
    rw [← hcc] at hb
    rw [hbfalse] at hb
    cases hb
  obtain ⟨⟨cure, hcure, hfe, hbe⟩, hfrv⟩ := hent e (List.mem_cons_self e es)
  have hvb := listGetI_lt_length hcure
  have hvfb := listGetI_lt_length hfrv
  have hvp_ne : e.page_number ≠ p := by
    intro hcon
    exact hpnotin (hcon ▸ List.mem_map_of_mem _ (List.mem_cons_self e es))
  have hpv_ne : p ≠ e.page_number := fun hcon => hvp_ne hcon.symm
  obtain ⟨hdq, hq1⟩ := QRep_dequeue hq
  have hcurepn : cure.page_number = e.page_number := hidx _ cure hcure
  have hsetv : listSetI pt.entries e.page_number
      (⟨cure.page_number, cure.frame_number, cure.metadata - cure.metadata % 2⟩ :
        page_table_entry) =
      some (pt.entries.set e.page_number.toNat
        (⟨cure.page_number, cure.frame_number, cure.metadata - cure.metadata % 2⟩ :
          page_table_entry)) :=
    listSetI_eq_some.mpr ⟨hvb, rfl⟩
  have hacc1 : page_table_access_page pt p =
      swap_fifo { pt with faults := pt.faults + 1 } p := by
    simp only [page_table_access_page, hget]
    rw [if_neg hmiss]
    simp only [hfind, halg]
  have hgetm : listGetI (pt.entries.set e.page_number.toNat
      (⟨cure.page_number, cure.frame_number, cure.metadata - cure.metadata % 2⟩ :
        page_table_entry)) p = some entry := by
    rw [listGetI_set_ne _ hvb.1 hvp_ne]
    exact hget
  have hswap : swap_fifo { pt with faults := pt.faults + 1 } p =
      place_in_memory
        { pt with faults := pt.faults + 1,
                  fifo_queue := { pt.fifo_queue with
                    front := (pt.fifo_queue.front + 1) % (pt.fifo_queue.capacity : Int),
                    size := pt.fifo_queue.size - 1 },
                  entries := pt.entries.set e.page_number.toNat
                    (⟨cure.page_number, cure.frame_number,
                      cure.metadata - cure.metadata % 2⟩ : page_table_entry) }
        p e.frame_number := by
    simp only [swap_fifo, hdq, hcure, hsetv]
  have hplace := @place_fifo_eq
    ({ pt with
       faults := pt.faults + 1,
       fifo_queue := { pt.fifo_queue with
                       front := (pt.fifo_queue.front + 1) % (pt.fifo_queue.capacity : Int),
                       size := pt.fifo_queue.size - 1 },
       entries := pt.entries.set e.page_number.toNat
         (⟨cure.page_number, cure.frame_number,
           cure.metadata - cure.metadata % 2⟩ : page_table_entry) })
    p e.frame_number entry halg hgetm hvfb.1 (by exact hvfb.2)
  have hlen_full : (e :: es).length = pt.frames.length :=
    fifo_full_length ⟨halg, hq, hcap, hent, hnp, hnf, hval, hidx, hocc⟩ hfind
  have hlen_set : (pt.entries.set e.page_number.toNat
      (⟨cure.page_number, cure.frame_number, cure.metadata - cure.metadata % 2⟩ :
        page_table_entry)).length = pt.entries.length := List.length_set _ _ _
  refine ⟨_, by rw [hacc1, hswap, hplace], ?_, ?_, hfrv, ⟨cure, hcure, hfe, hbe⟩, ?_, ?_, ?_⟩
  case refine_2 =>
    show (pt.frames.set e.frame_number.toNat p).length = pt.frames.length
    exact List.length_set _ _ _
  case refine_3 =>
    refine ⟨(⟨cure.page_number, cure.frame_number,
        cure.metadata - cure.metadata % 2⟩ : page_table_entry), ?_, is_bit_set_clear _⟩
    show listGetI ((pt.entries.set e.page_number.toNat _).set p.toNat _) e.page_number = some _
    rw [listGetI_set_ne _ hpb.1 hpv_ne]
    exact listGetI_set_self _ hvb.1 hvb.2
  case refine_4 =>
    show listGetI (pt.frames.set e.frame_number.toNat p) e.frame_number = some p
    exact listGetI_set_self _ hvfb.1 hvfb.2
  case refine_5 =>
    refine ⟨(⟨entry.page_number, e.frame_number,
        entry.metadata ||| (1 <<< VALID_BIT)⟩ : page_table_entry), ?_, rfl, is_bit_set_set _⟩
    show listGetI ((pt.entries.set e.page_number.toNat _).set p.toNat _) p = some _
    refine listGetI_set_self _ hpb.1 ?_
    rw [hlen_set]
    exact hpb.2
  case refine_1 =>
    rw [List.map_cons, List.nodup_cons] at hnp hnf
    rw [List.map_cons] at hpnotin
    have hpnotin2 : p ∉ es.map page_table_entry.page_number := by
      intro hm
      exact hpnotin (List.mem_cons_of_mem _ hm)
    refine ⟨halg, ?_, ?_, ?_, ?_, ?_, ?_, ?_, ?_⟩
    · refine QRep_enqueue hq1 ?_ _
      show es.length < ({ pt.fifo_queue with
        front := (pt.fifo_queue.front + 1) % (pt.fifo_queue.capacity : Int),
        size := pt.fifo_queue.size - 1 } : page_queue).capacity
      show es.length < pt.fifo_queue.capacity
      rw [hcap]
      rw [← hlen_full]
      simp
    · show (enqueue _ _).capacity = (pt.frames.set e.frame_number.toNat p).length
      rw [enqueue_capacity, List.length_set]
      exact hcap
    · intro x hx
      rw [List.mem_append] at hx
      rcases hx with hx | hx
      · obtain ⟨⟨cur, hc, hfn, hb⟩, hfr⟩ := hent x (List.mem_cons_of_mem _ hx)
        have hxp_ne : p ≠ x.page_number := by
          intro hcon
          exact hpnotin2 (hcon ▸ List.mem_map_of_mem _ hx)
        have hxv_ne : e.page_number ≠ x.page_number := by
          intro hcon
          exact hnp.1 (hcon ▸ List.mem_map_of_mem _ hx)
        have hxf_ne : e.frame_number ≠ x.frame_number := by
          intro hcon
          exact hnf.1 (hcon ▸ List.mem_map_of_mem _ hx)
        refine ⟨⟨cur, ?_, hfn, hb⟩, ?_⟩
        · show listGetI ((pt.entries.set e.page_number.toNat _).set p.toNat _)
            x.page_number = some cur
          rw [listGetI_set_ne _ hpb.1 hxp_ne, listGetI_set_ne _ hvb.1 hxv_ne]
          exact hc
        · show listGetI (pt.frames.set e.frame_number.toNat p) x.frame_number =
            some x.page_number
          rw [listGetI_set_ne _ hvfb.1 hxf_ne]
          exact hfr
      · rw [List.mem_singleton] at hx
        subst hx
        constructor
        · refine ⟨(⟨entry.page_number, e.frame_number,
              entry.metadata ||| (1 <<< VALID_BIT)⟩ : page_table_entry),
            ?_, rfl, is_bit_set_set _⟩
          show listGetI ((pt.entries.set e.page_number.toNat _).set p.toNat _)
            entry.page_number = some _
          rw [hentp]
          refine listGetI_set_self _ hpb.1 ?_
          rw [hlen_set]
          exact hpb.2
        · show listGetI (pt.frames.set e.frame_number.toNat p) e.frame_number =
            some entry.page_number
          rw [hentp]
          exact listGetI_set_self _ hvfb.1 hvfb.2
    · rw [List.map_append, List.map_singleton]
      refine List.Nodup.append hnp.2 (by simp) ?_
      rw [List.disjoint_singleton]
      show entry.page_number ∉ es.map page_table_entry.page_number
      rw [hentp]
      exact hpnotin2
    · rw [List.map_append, List.map_singleton]
      refine List.Nodup.append hnf.2 (by simp) ?_
      rw [List.disjoint_singleton]
      show e.frame_number ∉ es.map page_table_entry.frame_number
      exact hnf.1
    · intro p1 cur hc hb
      rw [List.map_append, List.map_singleton]
      by_cases hpp : p1 = p
      · subst hpp
        rw [List.mem_append]
        right
        simp [hentp]
      · rw [listGetI_set_ne _ hpb.1 (fun hcon => hpp hcon.symm)] at hc
        by_cases hpv : p1 = e.page_number
        · subst hpv
          rw [listGetI_set_self _ hvb.1 hvb.2] at hc
          injection hc with hcc
          rw [← hcc] at hb
          rw [is_bit_set_clear] at hb
          cases hb
        · rw [listGetI_set_ne _ hvb.1 (fun hcon => hpv hcon.symm)] at hc
          have := hval p1 cur hc hb
          rw [List.map_cons] at this
          rw [List.mem_cons] at this
          rcases this with hthis | hthis
          · exact absurd (hthis ▸ hpv) (fun hcon => hcon rfl)
          · rw [List.mem_append]
            left
            exact hthis
    · intro p1 cur hc
      by_cases hpp : p1 = p
      · subst hpp
        have hself := listGetI_set_self
          (l := pt.entries.set e.page_number.toNat
            (⟨cure.page_number, cure.frame_number,
              cure.metadata - cure.metadata % 2⟩ : page_table_entry))
          (⟨entry.page_number, e.frame_number,
            entry.metadata ||| (1 <<< VALID_BIT)⟩ : page_table_entry)
          hpb.1 (by rw [hlen_set]; exact hpb.2)
        rw [hself] at hc
        injection hc with hcc
        rw [← hcc]
        exact hentp
      · rw [listGetI_set_ne _ hpb.1 (fun hcon => hpp hcon.symm)] at hc
        by_cases hpv : p1 = e.page_number
        · subst hpv
          rw [listGetI_set_self _ hvb.1 hvb.2] at hc
          injection hc with hcc
          rw [← hcc]
          exact hcurepn
        · rw [listGetI_set_ne _ hvb.1 (fun hcon => hpv hcon.symm)] at hc
          exact hidx p1 cur hc
    · intro f v hv hne
      by_cases hfv : (f : Int) = e.frame_number
      · have hvp : v = p := by
          have hset : (pt.frames.set e.frame_number.toNat p).get? f = some p := by
            have hfn : e.frame_number.toNat = f := by omega
            rw [hfn]
            refine List.get?_set_eq_of_lt _ ?_
            omega
          rw [hset] at hv
          injection hv with hvv
          exact hvv.symm
        subst hvp
        refine ⟨_, by rw [List.mem_append]; right; exact List.mem_singleton.mpr rfl, ?_, ?_⟩
        · exact hfv.symm
        · exact hentp.symm
      · have hvold : pt.frames.get? f = some v := by
          have hfn : e.frame_number.toNat ≠ f := by omega
          rw [List.get?_set_ne _ _ hfn] at hv
          exact hv
        obtain ⟨x, hx, hxf, hxv⟩ := hocc f v hvold hne
        rw [List.mem_cons] at hx
        rcases hx with hx | hx
        · subst hx
          exact absurd hxf.symm hfv
        · exact ⟨x, by rw [List.mem_append]; left; exact hx, hxf, hxv⟩

/- One completing access on a FIFO engine transforms the queue contents
exactly as the spec-level FIFO model prescribes. -/
theorem fifo_invariant_step {pt : page_table} {es : List page_table_entry} {p : Int}
    {pt1 : page_table}
    (hinv : FifoInv pt es)
    (h : page_table_access_page pt p = some pt1) :
    ∃ es1, FifoInv pt1 es1 ∧
      es1.map page_table_entry.page_number =
        fifoSpecStep pt.frames.length (es.map page_table_entry.page_number) p ∧
      pt1.frames.length = pt.frames.length := by
  have horig := h
  have halg := hinv.1
  have hidx := hinv.2.2.2.2.2.2.2.1
  unfold page_table_access_page at h
  split at h
  case h_1 => exact absurd h (by simp)
  case h_2 entry hget =>
    have hentp : entry.page_number = p := hidx p entry hget
    split at h
    case isTrue hc =>
      have hmem : p ∈ es.map page_table_entry.page_number :=
        (fifo_resident_iff hinv p).mp ⟨entry, hget, hc.2⟩
      have hpt : pt1 = pt := by
        split at h
        case h_1 heq =>
          rw [halg] at heq
          cases heq
        case h_2 =>
          injection h with hh
          exact hh.symm
      subst hpt
      refine ⟨es, hinv, ?_, rfl⟩
      unfold fifoSpecStep
      rw [if_pos hmem]
    case isFalse hc =>
      have hbfalse : is_bit_set entry.metadata VALID_BIT = false := by
        cases hb : is_bit_set entry.metadata VALID_BIT
        · rfl
        · exact absurd ((fifo_hit_iff hinv hget).mpr hb) hc
      have hpnotin : p ∉ es.map page_table_entry.page_number := by
        intro hm
        obtain ⟨cur, hcu, hb⟩ := (fifo_resident_iff hinv p).mpr hm
        rw [hget] at hcu
        injection hcu with hcc
        rw [← hcc] at hb
        rw [hbfalse] at hb
        cases hb
      split at h
      case h_1 i hfind =>
        obtain ⟨hfree_lt, _, _, _⟩ := fifo_free_length hinv hfind
        obtain ⟨hacc, hinv1⟩ := fifo_step_free hinv hget hc hfind
        rw [horig] at hacc
        injection hacc with hacc1
        refine ⟨_, hacc1 ▸ hinv1, ?_, ?_⟩
        · rw [List.map_append, List.map_singleton]
          unfold fifoSpecStep
          rw [if_neg hpnotin]
          rw [if_pos (by rw [List.length_map]; exact hfree_lt)]
          rw [hentp]
        · rw [hacc1]
          show (pt.frames.set _ _).length = pt.frames.length
          exact List.length_set _ _ _
      case h_2 hfind =>
        split at h
        case h_2 heq =>
          rw [halg] at heq
          cases heq
        case h_3 heq =>
          rw [halg] at heq
          cases heq
        case h_1 heq =>
          cases es with
          | nil =>
            exfalso
            have hsz : pt.fifo_queue.size = 0 := by
              have := hinv.2.1.2.1
              simpa using this
            have hemp : is_empty pt.fifo_queue = true := by
              simp [is_empty, hsz]
            have hdqn : dequeue pt.fifo_queue = (none, pt.fifo_queue) := by
              unfold dequeue
              rw [hemp]
              simp
            have hnone : swap_fifo { pt with faults := pt.faults + 1 } p = none := by
              simp only [swap_fifo, hdqn]
            rw [hnone] at h
            cases h
          | cons e es1 =>
            have hfull := fifo_full_length hinv hfind
            obtain ⟨pt2, hacc, hinv2, hlen2, _, _, _, _, _⟩ :=
              fifo_step_swap hinv hget hc hfind
            rw [horig] at hacc
            injection hacc with hacc1
            refine ⟨_, hacc1 ▸ hinv2, ?_, by rw [hacc1]; exact hlen2⟩
            rw [List.map_append, List.map_singleton]
            unfold fifoSpecStep
            rw [if_neg hpnotin]
            rw [if_neg (by rw [List.length_map, hfull]; omega)]
            rw [hentp]
            rfl

/- A completing run on a FIFO engine refines the spec-level model, starting
from any invariant state. -/
theorem fifo_run_inv_aux {refs : List Int} {pt0 : page_table}
    {es0 : List page_table_entry} {pt : page_table}
    (hinv : FifoInv pt0 es0)
    (h : page_table_run pt0 refs = some pt) :
    ∃ es, FifoInv pt es ∧
      es.map page_table_entry.page_number =
        refs.foldl (fifoSpecStep pt0.frames.length) (es0.map page_table_entry.page_number) ∧
      pt.frames.length = pt0.frames.length := by
  induction refs generalizing pt0 es0 with
  | nil =>
    unfold page_table_run at h
    cases h
    exact ⟨es0, hinv, rfl, rfl⟩
  | cons q qs ih =>
    unfold page_table_run at h
    split at h
    case h_2 => exact absurd h (by simp)
    case h_1 pt2 hacc =>
      obtain ⟨es2, hinv2, hmap2, hlen2⟩ := fifo_invariant_step hinv hacc
      obtain ⟨es3, hinv3, hmap3, hlen3⟩ := @ih pt2 es2 hinv2 h
      refine ⟨es3, hinv3, ?_, by rw [hlen3, hlen2]⟩
      rw [hmap3, hlen2, hmap2]
      rfl

/- A completing run from a fresh FIFO engine refines the spec-level model
started empty. -/
theorem fifo_run_inv {page_count frame_count : Nat} {refs : List Int} {pt : page_table}
    (h : page_table_run (page_table_create page_count frame_count .FIFO) refs = some pt) :
    ∃ es, FifoInv pt es ∧
      es.map page_table_entry.page_number = fifoSpecModel frame_count refs ∧
      pt.frames.length = frame_count := by
  obtain ⟨es, hinv, hmap, hlen⟩ :=
    fifo_run_inv_aux (FifoInv_create page_count frame_count) h
  have hfc : (page_table_create page_count frame_count .FIFO).frames.length = frame_count := by
    show (List.replicate frame_count EMPTY).length = frame_count
    simp
  refine ⟨es, hinv, ?_, by rw [hlen, hfc]⟩
  rw [hmap, hfc]
  rfl

/-- Claim C5 counterexample: with frame_count = 0 every frame is (vacuously)
occupied and page 1 is non-resident, yet the access does not evict the
earliest-loaded resident page — there is none — it dereferences the NULL
dequeue result instead (modeled as failure). -/
theorem C5_counterexample :
    (page_table_create 2 0 .FIFO).frames = [] ∧
    listGetI (page_table_create 2 0 .FIFO).entries 1 =
      some { page_number := 1, frame_number := EMPTY, metadata := 0 } ∧
    page_table_access_page (page_table_create 2 0 .FIFO) 1 = none :=
  ⟨rfl, rfl, rfl⟩

/-- Claim C5 (amended): on a FIFO engine with at least one frame, reached by
any completing run, with every frame occupied: an access to a non-resident
in-range page completes and evicts exactly the earliest-loaded
currently-resident page — the head of the spec-level load-order list, which
coincides with the set of resident pages — and places the new page into the
frame that victim occupied; afterwards the load-order list is the old tail
with the new page appended, and its length never exceeds frame_count. -/
theorem C5_fifo_eviction {page_count frame_count : Nat} {refs : List Int}
    {pt : page_table} {page : Int} {entry : page_table_entry}
    (hrun : page_table_run (page_table_create page_count frame_count .FIFO) refs = some pt)
    (hfc : 0 < frame_count)
    (hfull : ∀ f ∈ pt.frames, f ≠ EMPTY)
    (hget : listGetI pt.entries page = some entry)
    (hmiss : is_bit_set entry.metadata VALID_BIT = false) :
    ∃ pt1 victim rest victim_frame,
      page_table_access_page pt page = some pt1 ∧
      fifoSpecModel frame_count refs = victim :: rest ∧
      (∀ q, (∃ cur, listGetI pt.entries q = some cur ∧
          is_bit_set cur.metadata VALID_BIT = true) ↔ q ∈ victim :: rest) ∧
      (∃ cure, listGetI pt.entries victim = some cure ∧
        cure.frame_number = victim_frame ∧ is_bit_set cure.metadata VALID_BIT = true) ∧
      listGetI pt.frames victim_frame = some victim ∧
      (∃ cur2, listGetI pt1.entries victim = some cur2 ∧
        is_bit_set cur2.metadata VALID_BIT = false) ∧
      listGetI pt1.frames victim_frame = some page ∧
      (∃ cur3, listGetI pt1.entries page = some cur3 ∧
        cur3.frame_number = victim_frame ∧ is_bit_set cur3.metadata VALID_BIT = true) ∧
      fifoSpecModel frame_count (refs ++ [page]) = rest ++ [page] ∧
      (fifoSpecModel frame_count refs).length ≤ frame_count := by
  obtain ⟨es, hinv, hmap, hlen⟩ := fifo_run_inv hrun
  have hfind : pt.frames.findIdx? (fun f => f == EMPTY) = none := by
    rw [List.findIdx?_eq_none_iff]
    intro x hx
    simpa using hfull x hx
  have hfull_len := fifo_full_length hinv hfind
  have hmiss2 : ¬(entry.frame_number ≠ EMPTY ∧
      is_bit_set entry.metadata VALID_BIT = true) := by
    intro hcon
    rw [hmiss] at hcon
    cases hcon.2
  have hpnotin : page ∉ es.map page_table_entry.page_number := by
    intro hm
    obtain ⟨cur, hcu, hb⟩ := (fifo_resident_iff hinv page).mpr hm
    rw [hget] at hcu
    injection hcu with hcc
    rw [← hcc] at hb
    rw [hmiss] at hb
    cases hb
  cases es with
  | nil =>
    exfalso
    rw [hlen] at hfull_len
    simp at hfull_len
    omega
  | cons e es1 =>
    obtain ⟨pt1, hacc, hinv1, hlen1, hfrv, hcure, hcur2, hfr1, hcur3⟩ :=
      fifo_step_swap hinv hget hmiss2 hfind
    have hmodel : fifoSpecModel frame_count refs =
        e.page_number :: es1.map page_table_entry.page_number := by
      rw [← hmap]
      rfl
    have hmlen : (fifoSpecModel frame_count refs).length = frame_count := by
      rw [← hmap, List.length_map]
      rw [hlen] at hfull_len
      exact hfull_len
    refine ⟨pt1, e.page_number, es1.map page_table_entry.page_number, e.frame_number,
      hacc, hmodel, ?_, hcure, hfrv, hcur2, hfr1, hcur3, ?_, ?_⟩
    · intro q
      rw [show e.page_number :: es1.map page_table_entry.page_number =
          (e :: es1).map page_table_entry.page_number from rfl]
      exact fifo_resident_iff hinv q
    · unfold fifoSpecModel
      rw [List.foldl_append]
      show fifoSpecStep frame_count (fifoSpecModel frame_count refs) page = _
      unfold fifoSpecStep
      rw [if_neg (by rw [hmodel]; rw [← List.map_cons]; exact hpnotin)]
      rw [if_neg (by rw [hmlen]; omega)]
      rw [hmodel]
      rfl
    · rw [hmlen]

def c5pt : page_table :=
  (page_table_run (page_table_create 3 2 .FIFO) [0, 1]).getD pt_default

/-- Witness for C5 (amended) at a concrete engine: FIFO, 3 pages, 2 frames,
after [0,1] both frames are occupied; accessing page 2 must evict page 0. -/
theorem C5_witness :
    ∃ pt1 victim rest victim_frame,
      page_table_access_page c5pt 2 = some pt1 ∧
      fifoSpecModel 2 [0, 1] = victim :: rest ∧
      (∀ q, (∃ cur, listGetI c5pt.entries q = some cur ∧
          is_bit_set cur.metadata VALID_BIT = true) ↔ q ∈ victim :: rest) ∧
      (∃ cure, listGetI c5pt.entries victim = some cure ∧
        cure.frame_number = victim_frame ∧ is_bit_set cure.metadata VALID_BIT = true) ∧
      listGetI c5pt.frames victim_frame = some victim ∧
      (∃ cur2, listGetI pt1.entries victim = some cur2 ∧
        is_bit_set cur2.metadata VALID_BIT = false) ∧
      listGetI pt1.frames victim_frame = some 2 ∧
      (∃ cur3, listGetI pt1.entries 2 = some cur3 ∧
        cur3.frame_number = victim_frame ∧ is_bit_set cur3.metadata VALID_BIT = true) ∧
      fifoSpecModel 2 ([0, 1] ++ [2]) = rest ++ [2] ∧
      (fifoSpecModel 2 [0, 1]).length ≤ 2 :=
  @C5_fifo_eviction 3 2 [0, 1] c5pt 2
    { page_number := 2, frame_number := EMPTY, metadata := 0 }
    rfl (by decide) (by decide) rfl rfl
